import Mathlib

/-!
# Verification of the Twitter frontend core (`src/utils/api.ts`)

A shallow embedding of the algorithmic core of the repository:

* the text normalizer (`detectTruncatedText`, the text-cleaning part of
  `processTweet`),
* the request gateway's failure cache (`hasRecentlyFailed`,
  `recordFailedRequest`, the status dispatch of `makeApiRequest`),
* the reply post-processing of `fetchAllReplies` (sort + position assignment),
* the thread grouping engine (`groupThreads`).

Modelling conventions for the JavaScript/TypeScript source:

* A JS string is modelled as `List Char`.  Every character relevant to the
  source (ASCII, the ellipsis U+2026, and the Devanagari/Arabic/Hebrew/Thai/CJK
  ranges the source tests for) lies in the Basic Multilingual Plane, where one
  UTF-16 code unit is one code point, so `String.prototype.length` is the list
  length.
* Optional string-valued fields (`string | undefined` in the source) are
  `Option String`; JS truthiness makes both `undefined` and `""` falsy, which
  `truthy` captures.
* `Array.prototype.sort` is modelled as a stable comparison sort (`jsSort`,
  an insertion sort).  ECMAScript guarantees stability; for comparators that
  are not consistent the ECMAScript order is implementation-defined, and all
  theorems below hold for any choice because they only depend on the sorted
  list being a permutation.
* `new Date(s).getTime()` is a host builtin, not repository code.  It never
  throws; on an unparseable string it returns NaN.  It is modelled by an
  arbitrary parameter `pt : String → Option Int` (`none` = NaN), and the
  theorems are quantified over `pt`.  Arithmetic on a NaN operand yields NaN,
  and a sort comparator that returns NaN is treated as 0 ("equal") by
  `Array.prototype.sort`; `jsDateDiff`/`.getD 0` capture this.
* JS `Map`s (insertion-ordered, `set` on an existing key keeps its position)
  are association lists with `mapSet`/`mapGet?`/`mapHas`/`mapDelete`;
  JS `Set`s of strings are insertion-ordered duplicate-free lists (`setAdd`).
-/

/-! ## JS string primitives -/

/-- The ECMAScript whitespace class used by both `String.prototype.trim` and
the regex class `\s`: WhiteSpace ∪ LineTerminator. -/
def jsWhitespace (c : Char) : Bool :=
  c.toNat = 0x20 || c.toNat = 0x09 || c.toNat = 0x0A || c.toNat = 0x0D ||
  c.toNat = 0x0B || c.toNat = 0x0C || c.toNat = 0xA0 || c.toNat = 0x1680 ||
  (0x2000 ≤ c.toNat && c.toNat ≤ 0x200A) || c.toNat = 0x2028 || c.toNat = 0x2029 ||
  c.toNat = 0x202F || c.toNat = 0x205F || c.toNat = 0x3000 || c.toNat = 0xFEFF

/-- `String.prototype.trim`. -/
def jsTrim (l : List Char) : List Char :=
  ((l.dropWhile jsWhitespace).reverse.dropWhile jsWhitespace).reverse

/-- `String.prototype.includes(pat)`. -/
def jsIncludes (l pat : List Char) : Bool :=
  (List.range (l.length + 1)).any (fun i => pat.isPrefixOf (l.drop i))

/-- Helper for `splitWs`: accumulates the current (reversed) token. -/
def splitWsAux : List Char → List Char → List (List Char)
  | [], acc => if acc.isEmpty then [] else [acc.reverse]
  | c :: rest, acc =>
    if jsWhitespace c then
      if acc.isEmpty then splitWsAux rest [] else acc.reverse :: splitWsAux rest []
    else splitWsAux rest (c :: acc)

/-- `s.split(/\s+/)` on a string with no leading/trailing whitespace: the
maximal whitespace-free runs.  (On the empty string JS returns `[""]`; the
source only splits trimmed non-empty strings, and the sole use guards with
`lastWords.length > 0` and membership of the last word in a list of non-empty
words, so the difference is unobservable.) -/
def splitWs (l : List Char) : List (List Char) := splitWsAux l []

/-- JS truthiness of a `string | undefined` value: `undefined` and `""` are
falsy. -/
def truthy : Option String → Bool
  | none => false
  | some s => !s.isEmpty

/-! ## Stable sort (model of `Array.prototype.sort`) -/

/-- Insert `x` before the first element `y` with `le x y`.  Elements that
compare equal under a consistent comparator keep their original relative
order, matching the stability guarantee of `Array.prototype.sort`. -/
def jsOrderedInsert (le : α → α → Bool) (x : α) : List α → List α
  | [] => [x]
  | y :: ys => if le x y then x :: y :: ys else y :: jsOrderedInsert le x ys

/-- Stable comparison sort. -/
def jsSort (le : α → α → Bool) : List α → List α
  | [] => []
  | x :: xs => jsOrderedInsert le x (jsSort le xs)

theorem jsOrderedInsert_perm (le : α → α → Bool) (x : α) (l : List α) :
    (jsOrderedInsert le x l).Perm (x :: l) := by
  induction l with
  | nil => simp [jsOrderedInsert]
  | cons y ys ih =>
    simp only [jsOrderedInsert]
    split
    · exact List.Perm.refl _
    · exact (List.Perm.cons y ih).trans (List.Perm.swap x y ys)

theorem jsSort_perm (le : α → α → Bool) (l : List α) : (jsSort le l).Perm l := by
  induction l with
  | nil => simp [jsSort]
  | cons x xs ih =>
    exact (jsOrderedInsert_perm le x (jsSort le xs)).trans (ih.cons x)

theorem jsSort_length (le : α → α → Bool) (l : List α) :
    (jsSort le l).length = l.length :=
  (jsSort_perm le l).length_eq

theorem jsSort_mem {le : α → α → Bool} {l : List α} {x : α} :
    x ∈ jsSort le l ↔ x ∈ l :=
  (jsSort_perm le l).mem_iff

/-! ## The truncation detector (`detectTruncatedText`, api.ts lines 179–202) -/

/-- The `commonTruncationEnders` list of the source. -/
def commonTruncationEnders : List (List Char) :=
  ["the", "a", "an", "to", "in", "on", "at", "by", "for", "with", "about",
   "like", "of", "all"].map String.toList

/-- The character class
`[ऀ-ॿ؀-ۿ֐-׿฀-๿぀-ヿ㐀-䶿一-鿿]`
of the source's non-Latin-script test. -/
def nonLatinScriptChar (c : Char) : Bool :=
  (0x0900 ≤ c.toNat && c.toNat ≤ 0x097F) || (0x0600 ≤ c.toNat && c.toNat ≤ 0x06FF) ||
  (0x0590 ≤ c.toNat && c.toNat ≤ 0x05FF) || (0x0E00 ≤ c.toNat && c.toNat ≤ 0x0E7F) ||
  (0x3040 ≤ c.toNat && c.toNat ≤ 0x30FF) || (0x3400 ≤ c.toNat && c.toNat ≤ 0x4DBF) ||
  (0x4E00 ≤ c.toNat && c.toNat ≤ 0x9FFF)

/-- The terminal punctuation class `[.!?"]` of the source
(`.` = 0x2E, `!` = 0x21, `?` = 0x3F, `"` = 0x22). -/
def terminalPunctChar (c : Char) : Bool :=
  c.toNat = 0x2E || c.toNat = 0x21 || c.toNat = 0x3F || c.toNat = 0x22

/-- The last one or two whitespace-delimited tokens: `…split(/\s+/).slice(-2)`. -/
def lastWordsOf (text : List Char) : List (List Char) :=
  let ws := splitWs (jsTrim text)
  ws.drop (ws.length - 2)

/-- `detectTruncatedText` (api.ts lines 179–202), translated branch by branch.
`text.endsWith('…')` is a last-character test; `lastWords[lastWords.length-1]`
is the last token (only the *last* token is compared against
`commonTruncationEnders`, even though two tokens are sliced). -/
def detectTruncatedText (text : List Char) : Bool :=
  if (jsTrim text).isEmpty then false
  else if text.getLast? = some '…' || ['.', '.', '.'].isSuffixOf text then true
  else if jsIncludes text ("… https://".toList) || jsIncludes text ("... https://".toList) then
    true
  else if (lastWordsOf text).length > 0 &&
      commonTruncationEnders.contains (((lastWordsOf text).getLast?.getD []).map Char.toLower) then
    true
  else
    let hasNonLatinScript := text.any nonLatinScriptChar
    let thresholdLength : Nat := if hasNonLatinScript then 180 else 240
    if text.length ≥ thresholdLength &&
        !(((jsTrim text).getLast?.map terminalPunctChar).getD false) then
      true
    else false

/-! ## Basic lemmas about the string primitives -/

theorem dropWhile_eq_self_of_all {p : α → Bool} {l : List α}
    (h : ∀ c ∈ l, p c = false) : l.dropWhile p = l := by
  cases l with
  | nil => rfl
  | cons c rest => simp [List.dropWhile, h c (List.mem_cons_self c rest)]

theorem jsTrim_eq_self {l : List Char} (h : ∀ c ∈ l, jsWhitespace c = false) :
    jsTrim l = l := by
  unfold jsTrim
  rw [dropWhile_eq_self_of_all h, dropWhile_eq_self_of_all, List.reverse_reverse]
  intro c hc
  exact h c (List.mem_reverse.mp hc)

theorem jsIncludes_mem {l pat : List Char} (h : jsIncludes l pat = true) :
    ∀ c ∈ pat, c ∈ l := by
  unfold jsIncludes at h
  rcases List.any_eq_true.mp h with ⟨i, _, hpre⟩
  intro c hc
  exact List.drop_subset i l ((List.isPrefixOf_iff_prefix.mp hpre).subset hc)

theorem splitWsAux_no_ws {l : List Char} (h : ∀ c ∈ l, jsWhitespace c = false) :
    ∀ acc : List Char,
      splitWsAux l acc =
        if (acc.reverse ++ l).isEmpty then [] else [acc.reverse ++ l] := by
  induction l with
  | nil =>
    intro acc
    simp [splitWsAux, List.isEmpty_iff]
  | cons c rest ih =>
    intro acc
    have hc : jsWhitespace c = false := h c (List.mem_cons_self c rest)
    have hrest : ∀ x ∈ rest, jsWhitespace x = false :=
      fun x hx => h x (List.mem_cons_of_mem c hx)
    simp only [splitWsAux, hc, Bool.false_eq_true, if_false, ih hrest]
    have : acc.reverse ++ c :: rest = (c :: acc).reverse ++ rest := by
      simp
    rw [this]

theorem splitWs_no_ws {l : List Char} (hne : l ≠ [])
    (h : ∀ c ∈ l, jsWhitespace c = false) : splitWs l = [l] := by
  unfold splitWs
  rw [splitWsAux_no_ws h]
  simp [List.isEmpty_iff, hne]

/-! ## Helper lemmas about `detectTruncatedText` -/

/-- If the trimmed text is non-empty and the length-threshold branch fires,
the detector returns `true` (whatever the earlier `true` branches do). -/
theorem detectTruncatedText_true_of_threshold {text : List Char}
    (h0 : (jsTrim text).isEmpty = false)
    (h4 : (text.length ≥ (if text.any nonLatinScriptChar then 180 else 240) &&
      !(((jsTrim text).getLast?.map terminalPunctChar).getD false)) = true) :
    detectTruncatedText text = true := by
  unfold detectTruncatedText
  simp only [h0, Bool.false_eq_true, if_false]
  split
  · rfl
  · split
    · rfl
    · split
      · rfl
      · simp only [h4, if_true]

/-- If the trimmed text is non-empty and the last-token branch fires,
the detector returns `true`. -/
theorem detectTruncatedText_true_of_lastword {text : List Char}
    (h0 : (jsTrim text).isEmpty = false)
    (h3 : ((lastWordsOf text).length > 0 &&
      commonTruncationEnders.contains
        (((lastWordsOf text).getLast?.getD []).map Char.toLower)) = true) :
    detectTruncatedText text = true := by
  unfold detectTruncatedText
  simp only [h0, Bool.false_eq_true, if_false]
  split
  · rfl
  · split
    · rfl
    · simp only [h3, if_true]

theorem devanagari_not_ws {c : Char} (h1 : 0x0900 ≤ c.toNat) (h2 : c.toNat ≤ 0x097F) :
    jsWhitespace c = false := by
  apply Bool.eq_false_iff.mpr
  intro h
  simp only [jsWhitespace, Bool.or_eq_true, Bool.and_eq_true, decide_eq_true_eq] at h
  omega

theorem devanagari_not_terminal {c : Char} (h1 : 0x0900 ≤ c.toNat) (h2 : c.toNat ≤ 0x097F) :
    terminalPunctChar c = false := by
  apply Bool.eq_false_iff.mpr
  intro h
  simp only [terminalPunctChar, Bool.or_eq_true, decide_eq_true_eq] at h
  omega

/-- C4: the spec's truncation-detection examples.  `detectTruncation` is true
on "Check this out…", false on "A complete sentence.", true on any
250-character Latin-script string with no terminal punctuation (and
non-whitespace content), true on any 190-character Devanagari string,
false on a 190-character Devanagari string ending in terminal punctuation,
and false on every empty or whitespace-only string. -/
theorem C4_detectTruncation_examples :
    (detectTruncatedText ("Check this out…".toList) = true ∧
     detectTruncatedText ("A complete sentence.".toList) = false) ∧
    (∀ text : List Char, text.length = 250 →
      (∀ c ∈ text, c.toNat ≤ 0x024F) →
      (jsTrim text).isEmpty = false →
      ((jsTrim text).getLast?.map terminalPunctChar) ≠ some true →
      detectTruncatedText text = true) ∧
    (∀ text : List Char, text.length = 190 →
      (∀ c ∈ text, 0x0900 ≤ c.toNat ∧ c.toNat ≤ 0x097F) →
      detectTruncatedText text = true) ∧
    (∀ (body : List Char) (p : Char), body.length = 189 →
      (∀ c ∈ body, 0x0900 ≤ c.toNat ∧ c.toNat ≤ 0x097F) →
      terminalPunctChar p = true →
      detectTruncatedText (body ++ [p]) = false) ∧
    (∀ text : List Char, (jsTrim text).isEmpty = true →
      detectTruncatedText text = false) := by
  refine ⟨⟨by decide, by decide⟩, ?_, ?_, ?_, ?_⟩
  · -- 250-character Latin-script, no terminal punctuation
    intro text hlen _hlatin h0 hterm
    refine detectTruncatedText_true_of_threshold h0 ?_
    have h2 : (((jsTrim text).getLast?.map terminalPunctChar).getD false) = false := by
      cases hl : ((jsTrim text).getLast?.map terminalPunctChar) with
      | none => rfl
      | some b =>
        cases b with
        | false => rfl
        | true => exact absurd hl hterm
    have h1 : text.length ≥ (if text.any nonLatinScriptChar then 180 else 240) := by
      rw [hlen]; split <;> norm_num
    rw [h2]
    simp only [Bool.not_false, Bool.and_true, decide_eq_true_eq]
    exact h1
  · -- 190-character Devanagari
    intro text hlen hdev
    have hnws : ∀ c ∈ text, jsWhitespace c = false := fun c hc =>
      devanagari_not_ws (hdev c hc).1 (hdev c hc).2
    have hne : text ≠ [] := by intro h; rw [h] at hlen; simp at hlen
    have htrim : jsTrim text = text := jsTrim_eq_self hnws
    have h0 : (jsTrim text).isEmpty = false := by
      rw [htrim]; simp [List.isEmpty_iff, hne]
    refine detectTruncatedText_true_of_threshold h0 ?_
    have hany : text.any nonLatinScriptChar = true := by
      rcases List.exists_mem_of_ne_nil text hne with ⟨c, hc⟩
      refine List.any_eq_true.mpr ⟨c, hc, ?_⟩
      rcases hdev c hc with ⟨h1, h2⟩
      simp only [nonLatinScriptChar, Bool.or_eq_true, Bool.and_eq_true, decide_eq_true_eq]
      omega
    have hterm2 : (((jsTrim text).getLast?.map terminalPunctChar).getD false) = false := by
      rw [htrim, List.getLast?_eq_getLast text hne]
      rcases hdev _ (List.getLast_mem hne) with ⟨h1, h2⟩
      simp [devanagari_not_terminal h1 h2]
    simp [hany, hlen, hterm2]
  · -- 190-character Devanagari ending in terminal punctuation
    intro body p hlen hdev hp
    have hpnum : p.toNat = 0x2E ∨ p.toNat = 0x21 ∨ p.toNat = 0x3F ∨ p.toNat = 0x22 := by
      simpa only [terminalPunctChar, Bool.or_eq_true, decide_eq_true_eq, or_assoc] using hp
    have hnws : ∀ c ∈ body ++ [p], jsWhitespace c = false := by
      intro c hc
      rcases List.mem_append.mp hc with hcb | hcp
      · exact devanagari_not_ws (hdev c hcb).1 (hdev c hcb).2
      · have : c = p := by simpa using hcp
        subst this
        apply Bool.eq_false_iff.mpr
        intro h
        simp only [jsWhitespace, Bool.or_eq_true, Bool.and_eq_true, decide_eq_true_eq] at h
        omega
    have hne : body ++ [p] ≠ [] := by simp
    have hbne : body ≠ [] := by intro h; rw [h] at hlen; simp at hlen
    have htrim : jsTrim (body ++ [p]) = body ++ [p] := jsTrim_eq_self hnws
    have h0 : (jsTrim (body ++ [p])).isEmpty = false := by
      rw [htrim]; simp [List.isEmpty_iff]
    have hlast : (body ++ [p]).getLast? = some p := List.getLast?_concat body
    -- branch 1: does not end with an ellipsis or "..."
    have b1 : decide ((body ++ [p]).getLast? = some '…') = false := by
      apply decide_eq_false
      rw [hlast]
      intro h
      have hpe : p = '…' := by injection h
      rw [hpe] at hpnum
      revert hpnum; decide
    have b2 : (['.', '.', '.'].isSuffixOf (body ++ [p])) = false := by
      apply Bool.eq_false_iff.mpr
      intro h
      rcases List.isSuffixOf_iff_suffix.mp h with ⟨t, ht⟩
      have hb : t ++ ['.', '.'] = body := by
        have h3 : (t ++ ['.', '.']) ++ ['.'] = body ++ [p] := by
          rw [← ht]; simp
        have := congrArg List.dropLast h3
        simpa [List.dropLast_concat] using this
      have hdot : '.' ∈ body := by
        rw [← hb]; simp
      rcases hdev '.' hdot with ⟨h1, _⟩
      revert h1; decide
    -- branch 2: contains no "… https://" nor "... https://"
    have hchar : ∀ c : Char, c ∈ body ++ [p] → c.toNat = 0x2026 ∨ c.toNat = 0x68 → False := by
      intro c hc hcn
      rcases List.mem_append.mp hc with hcb | hcp
      · rcases hdev c hcb with ⟨h1, h2⟩; omega
      · have : c = p := by simpa using hcp
        subst this; omega
    have b3 : jsIncludes (body ++ [p]) ("… https://".toList) = false := by
      apply Bool.eq_false_iff.mpr
      intro h
      exact hchar '…' (jsIncludes_mem h '…' (by decide)) (by decide)
    have b4 : jsIncludes (body ++ [p]) ("... https://".toList) = false := by
      apply Bool.eq_false_iff.mpr
      intro h
      exact hchar 'h' (jsIncludes_mem h 'h' (by decide)) (by decide)
    -- branch 3: the single token is 190 characters long, not a function word
    have hsplit : splitWs (body ++ [p]) = [body ++ [p]] := splitWs_no_ws hne hnws
    have hlw : lastWordsOf (body ++ [p]) = [body ++ [p]] := by
      unfold lastWordsOf
      rw [htrim, hsplit]
      simp
    have hb1 : p ≠ '…' := by
      intro h; rw [h] at hpnum; revert hpnum; decide
    have hb5 : (List.map Char.toLower ((lastWordsOf (body ++ [p])).getLast?.getD []))
        ∉ commonTruncationEnders := by
      rw [hlw]
      intro hmem
      have hmem' : ((body ++ [p]).map Char.toLower) ∈ commonTruncationEnders := by
        simpa using hmem
      have hlen2 : ((body ++ [p]).map Char.toLower).length = 190 := by
        rw [List.length_map]; simp [hlen]
      have hsmall : ∀ w ∈ commonTruncationEnders, w.length ≤ 5 := by decide
      have := hsmall _ hmem'
      omega
    -- branch 4: the threshold branch fails because the text ends in terminal punctuation
    have hb6 : (Option.map terminalPunctChar (jsTrim (body ++ [p])).getLast?).getD false
        = true := by
      rw [htrim, hlast]
      simp [hp]
    unfold detectTruncatedText
    simp [h0, hlast, hb1, b2, hb5, hb6]
    exact ⟨by simpa using b3, by simpa using b4⟩
  · -- empty / whitespace-only
    intro text h
    unfold detectTruncatedText
    simp [h]

set_option maxRecDepth 10000 in
/-- Witness for C4: the quantified parts instantiated at concrete strings. -/
theorem C4_detectTruncation_examples_witness :
    detectTruncatedText (List.replicate 250 'a') = true ∧
    detectTruncatedText (List.replicate 190 'क') = true ∧
    detectTruncatedText (List.replicate 189 'क' ++ ['.']) = false :=
  ⟨C4_detectTruncation_examples.2.1 (List.replicate 250 'a')
      (by decide) (by decide) (by decide) (by decide),
   C4_detectTruncation_examples.2.2.1 (List.replicate 190 'क')
      (by decide) (by decide),
   C4_detectTruncation_examples.2.2.2.1 (List.replicate 189 'क') '.'
      (by decide) (by decide) (by decide)⟩

/-- C5 (amended): the detector returns true whenever the *last*
whitespace-delimited token of the text (case-insensitively) is one of the
function words the/a/an/to/in/on/at/by/for/with/about/like/of/all.  (The
source slices the last two tokens but only ever compares the last one.) -/
theorem C5_lastToken_truncation (text w : List Char)
    (h0 : (jsTrim text).isEmpty = false)
    (hw : (splitWs (jsTrim text)).getLast? = some w)
    (hmem : (w.map Char.toLower) ∈ commonTruncationEnders) :
    detectTruncatedText text = true := by
  apply detectTruncatedText_true_of_lastword h0
  have hne : splitWs (jsTrim text) ≠ [] := by
    intro h; rw [h] at hw; simp at hw
  have hlw_last : (lastWordsOf text).getLast? = some w := by
    unfold lastWordsOf
    rw [List.getLast?_drop, if_neg]
    · exact hw
    · have := List.length_pos.mpr hne
      omega
  have hpos : 0 < (lastWordsOf text).length := by
    have hne2 : lastWordsOf text ≠ [] := by
      intro h; rw [h] at hlw_last; simp at hlw_last
    exact List.length_pos.mpr hne2
  rw [hlw_last]
  simp only [Option.getD_some, Bool.and_eq_true, decide_eq_true_eq]
  exact ⟨hpos, by simpa using hmem⟩

/-- Witness for C5's amended theorem: "going to" ends in the function word
"to" and is detected as truncated. -/
theorem C5_lastToken_truncation_witness :
    detectTruncatedText ("going to".toList) = true :=
  C5_lastToken_truncation ("going to".toList) ("to".toList)
    (by decide) (by decide) (by decide)

/-- C5 counterexample: in "went to the store" the second-to-last of the last
two whitespace-delimited tokens is the listed function word "the", yet the
detector returns false — the source compares only the final token, so the
claim's "either of the last one or two tokens" is wrong. -/
theorem C5_counterexample :
    (lastWordsOf ("went to the store".toList)).map (·.map Char.toLower) =
      ["the".toList, "store".toList] ∧
    "the".toList ∈ commonTruncationEnders ∧
    detectTruncatedText ("went to the store".toList) = false :=
  ⟨by decide, by decide, by decide⟩

/-! ## Text cleaning and the `is_long` flag of `processTweet`
(api.ts lines 205–269) -/

/-- The regex word class `\w` = `[A-Za-z0-9_]`. -/
def wordChar (c : Char) : Bool :=
  (0x41 ≤ c.toNat && c.toNat ≤ 0x5A) || (0x61 ≤ c.toNat && c.toNat ≤ 0x7A) ||
  (0x30 ≤ c.toNat && c.toNat ≤ 0x39) || c.toNat = 0x5F

/-- `.replace(/\s*https:\/\/t\.co\/\w+$/g, '')`: strip one trailing shortened
link (one or more word characters after the literal, any preceding
whitespace), anchored at the end of the string. -/
def stripTrailingTco (l : List Char) : List Char :=
  let r := l.reverse
  let w := r.takeWhile wordChar
  if w.isEmpty then l
  else
    let rest := r.drop w.length
    if ("https://t.co/".toList.reverse).isPrefixOf rest then
      ((rest.drop 13).dropWhile jsWhitespace).reverse
    else l

/-- `.replace(/(\s*[…\.]{3,})$/g, '')`: strip a trailing run of 3 or more
ellipsis/period characters together with any whitespace before it. -/
def stripTrailingEllipsisRun (l : List Char) : List Char :=
  let r := l.reverse
  let dots := r.takeWhile (fun c => c = '…' || c = '.')
  if dots.length ≥ 3 then ((r.drop dots.length).dropWhile jsWhitespace).reverse
  else l

/-- `.replace(/\n{3,}/g, '\n\n')` on a length fuel (the fuel never runs out:
both recursive calls are on lists no longer than `fuel`). -/
def collapseNewlinesAux : Nat → List Char → List Char
  | 0, _ => []
  | _ + 1, [] => []
  | fuel + 1, c :: rest =>
    if c = '\n' && (rest.takeWhile (· = '\n')).length ≥ 2 then
      '\n' :: '\n' :: collapseNewlinesAux fuel (rest.dropWhile (· = '\n'))
    else c :: collapseNewlinesAux fuel rest

/-- Collapse runs of 3 or more newlines to exactly two. -/
def collapseNewlines (l : List Char) : List Char := collapseNewlinesAux l.length l

/-- The fields of a raw API record that determine the text content and the
`is_long` flag computed by `processTweet`. -/
structure RawTweet where
  extended_text : Option String
  extended_tweet_full_text : Option String
  full_text : Option String
  text : Option String
deriving DecidableEq, Repr

/-- `tweet.extended_text || tweet.extended_tweet?.full_text || tweet.full_text
|| tweet.text || ''` (api.ts line 206), with JS `||` truthiness (`""` and
`undefined` are both falsy). -/
def textContentOf (t : RawTweet) : List Char :=
  if truthy t.extended_text then (t.extended_text.getD "").toList
  else if truthy t.extended_tweet_full_text then (t.extended_tweet_full_text.getD "").toList
  else if truthy t.full_text then (t.full_text.getD "").toList
  else if truthy t.text then (t.text.getD "").toList
  else []

/-- `cleanedText` (api.ts lines 226–229): strip a trailing t.co link, then a
trailing ellipsis run, then collapse newline runs — in that order. -/
def cleanText (l : List Char) : List Char :=
  collapseNewlines (stripTrailingEllipsisRun (stripTrailingTco l))

/-- `is_long` as computed by `processTweet` (api.ts line 265):
`textContent.length > 280 || isLikelyTruncated`, where `isLikelyTruncated`
(line 207) runs the detector on the *raw* text content. -/
def processTweet_is_long (t : RawTweet) : Bool :=
  decide ((textContentOf t).length > 280) || detectTruncatedText (textContentOf t)

/-- The spec's formulation of `isLong` (spec §4.2): raw length > 240, or
truncation detected on the cleaned `fullText`. -/
def isLong_spec (t : RawTweet) : Bool :=
  decide ((textContentOf t).length > 240) || detectTruncatedText (cleanText (textContentOf t))

/-- Raw record A for the C3 counterexample: 250 characters ending in a
period — over the spec's 240 threshold, under the code's 280. -/
def c3RawA : RawTweet :=
  { extended_text := none, extended_tweet_full_text := none,
    full_text := none, text := some (String.mk (List.replicate 249 'a' ++ ['.'])) }

/-- Raw record B for the C3 counterexample: the raw text ends in a t.co link,
so only the *cleaned* text ends in the function word "to". -/
def c3RawB : RawTweet :=
  { extended_text := none, extended_tweet_full_text := none,
    full_text := none, text := some "going to https://t.co/abc123" }

set_option maxRecDepth 10000 in
/-- C3 counterexample: `is_long` differs from the spec's `isLong` both on the
length threshold (A: 250 characters is long per the spec's `> 240`, not per
the code's `> 280`) and on which text the detector sees (B: the cleaned text
ends in "to", the raw text ends in the link, and the code detects on the raw
text). -/
theorem C3_counterexample :
    (processTweet_is_long c3RawA = false ∧ isLong_spec c3RawA = true) ∧
    (processTweet_is_long c3RawB = false ∧ isLong_spec c3RawB = true) :=
  ⟨⟨by decide, by decide⟩, ⟨by decide, by decide⟩⟩

/-- C3 (amended): for every raw record, the normalizer's `is_long` is true iff
the raw text content exceeds 280 characters or truncation is detected on the
raw text content (not the cleaned `fullText`). -/
theorem C3_isLong_characterization (t : RawTweet) :
    processTweet_is_long t = true ↔
      280 < (textContentOf t).length ∨ detectTruncatedText (textContentOf t) = true := by
  simp [processTweet_is_long]

/-! ## JS `Map` / `Set` primitives -/

/-- `Map.prototype.get` (first binding of the key). -/
def mapGet? (m : List (String × α)) (k : String) : Option α :=
  (m.find? (fun e => e.1 = k)).map (·.2)

/-- `Map.prototype.has`. -/
def mapHas (m : List (String × α)) (k : String) : Bool :=
  m.any (fun e => e.1 = k)

/-- `Map.prototype.set`: overwrite in place when the key is present (keeping
its position), append otherwise. -/
def mapSet (m : List (String × α)) (k : String) (v : α) : List (String × α) :=
  if mapHas m k then m.map (fun e => if e.1 = k then (k, v) else e) else m ++ [(k, v)]

/-- `Map.prototype.delete`. -/
def mapDelete (m : List (String × α)) (k : String) : List (String × α) :=
  m.filter (fun e => !(e.1 = k : Bool))

/-- `Set.prototype.add` on an insertion-ordered duplicate-free list. -/
def setAdd (s : List String) (x : String) : List String :=
  if s.contains x then s else s ++ [x]

theorem mapGet?_mapDelete_self (m : List (String × α)) (k : String) :
    mapGet? (mapDelete m k) k = none := by
  unfold mapGet? mapDelete
  rw [List.find?_eq_none.mpr]
  · rfl
  · intro e he
    have := (List.mem_filter.mp he).2
    simp only [Bool.not_eq_true'] at this
    simp [this]

theorem mapSet_mem_key {m : List (String × α)} {k : String} {v : α} :
    ∀ e ∈ mapSet m k v, e.1 = k → e = (k, v) := by
  intro e he hk
  unfold mapSet at he
  split at he
  · rcases List.mem_map.mp he with ⟨e₀, _, hmap⟩
    by_cases h : e₀.1 = k
    · rw [if_pos h] at hmap; exact hmap.symm
    · rw [if_neg h] at hmap; rw [← hmap] at hk; exact absurd hk h
  · rcases List.mem_append.mp he with h | h
    · exfalso
      rename_i hnot
      exact hnot (List.any_eq_true.mpr ⟨e, h, by simp [hk]⟩)
    · simpa using h

theorem mapSet_self_mem (m : List (String × α)) (k : String) (v : α) :
    (k, v) ∈ mapSet m k v := by
  unfold mapSet
  split
  · rename_i hhas
    rcases List.any_eq_true.mp hhas with ⟨e, he, hk⟩
    simp only [decide_eq_true_eq] at hk
    exact List.mem_map.mpr ⟨e, he, by rw [if_pos hk]⟩
  · simp

theorem mapGet?_eq_some_of {m : List (String × α)} {k : String} {v : α}
    (hmem : (k, v) ∈ m) (huniq : ∀ e ∈ m, e.1 = k → e = (k, v)) :
    mapGet? m k = some v := by
  induction m with
  | nil => cases hmem
  | cons e₀ rest ih =>
    by_cases h : e₀.1 = k
    · have he : e₀ = (k, v) := huniq e₀ (List.mem_cons_self e₀ rest) h
      unfold mapGet?
      rw [List.find?_cons_of_pos _ (by simp [h])]
      simp [he]
    · unfold mapGet?
      rw [List.find?_cons_of_neg _ (by simp [h])]
      rcases List.mem_cons.mp hmem with heq | hmem'
      · rw [← heq] at h; exact absurd rfl h
      · exact ih hmem' (fun e he hk => huniq e (List.mem_cons_of_mem e₀ he) hk)

theorem mapGet?_mapSet_self (m : List (String × α)) (k : String) (v : α) :
    mapGet? (mapSet m k v) k = some v :=
  mapGet?_eq_some_of (mapSet_self_mem m k v) mapSet_mem_key

/-! ## The failure cache (api.ts lines 10–131) -/

/-- One value of the `API_CACHE.failedRequests` map. -/
structure FailureRecord where
  timestamp : Int
  errorCode : Nat
  retryAfter : Option Int
deriving DecidableEq, Repr

def FAILED_REQUEST_EXPIRY : Int := 10 * 60 * 1000
def MAX_RETRIES : Nat := 2
def RETRY_DELAY : Nat := 3000

/-- `hasRecentlyFailed` (api.ts lines 94–110) at instant `now`: returns the
fail-fast flag together with the updated cache (expired records are purged
lazily on lookup).  JS numeric truthiness makes a zero `retryAfter` falsy,
hence the `ra ≠ 0` guard. -/
def hasRecentlyFailed (cache : List (String × FailureRecord)) (url : String)
    (now : Int) : Bool × List (String × FailureRecord) :=
  match mapGet? cache url with
  | none => (false, cache)
  | some fr =>
    if now - fr.timestamp > FAILED_REQUEST_EXPIRY then (false, mapDelete cache url)
    else if (match fr.retryAfter with
             | some ra => decide (ra ≠ 0) && decide (now > ra)
             | none => false) then (false, mapDelete cache url)
    else (true, cache)

/-- `recordFailedRequest` (api.ts lines 112–125): store a failure record
(`retryAfter`, when truthy, becomes the absolute deadline
`Date.now() + retryAfter`), then purge every expired record.  The several
`Date.now()` reads within the one call are modelled as the single instant
`now`. -/
def recordFailedRequest (cache : List (String × FailureRecord)) (url : String)
    (errorCode : Nat) (retryAfter : Option Int) (now : Int) :
    List (String × FailureRecord) :=
  let c1 := mapSet cache url
    { timestamp := now, errorCode := errorCode,
      retryAfter := retryAfter.bind (fun ra => if ra = 0 then none else some (now + ra)) }
  c1.filter (fun e => !(now - e.2.timestamp > FAILED_REQUEST_EXPIRY : Bool))

/-- C6 (amended): the pre-request failure-cache check fails fast exactly when
a failure record for the url exists, at most 10 minutes have elapsed since it
was recorded, *and* — when a (truthy) retry-after deadline is recorded, i.e.
in the 429 case — that deadline has not yet passed.  The spec's "either … or"
is really this conjunction: a passed 60-second 429 deadline re-allows the url
even inside the 10-minute window.  Whenever the check lets a recorded url
through, the record has been purged. -/
theorem C6_failureCache_check (cache : List (String × FailureRecord))
    (url : String) (now : Int) :
    ((hasRecentlyFailed cache url now).1 = true ↔
      ∃ fr, mapGet? cache url = some fr ∧
        now - fr.timestamp ≤ FAILED_REQUEST_EXPIRY ∧
        (∀ ra, fr.retryAfter = some ra → ra ≠ 0 → now ≤ ra)) ∧
    (∀ fr, mapGet? cache url = some fr → (hasRecentlyFailed cache url now).1 = false →
      mapGet? (hasRecentlyFailed cache url now).2 url = none) := by
  unfold hasRecentlyFailed
  cases hget : mapGet? cache url with
  | none =>
    refine ⟨⟨fun h => by simp at h, ?_⟩, ?_⟩
    · rintro ⟨fr, hfr, -⟩
      cases hfr
    · intro fr hfr
      cases hfr
  | some fr =>
    dsimp only
    by_cases hexp : now - fr.timestamp > FAILED_REQUEST_EXPIRY
    · rw [if_pos hexp]
      refine ⟨⟨fun h => by simp at h, ?_⟩, ?_⟩
      · rintro ⟨fr', hfr', hle, -⟩
        injection hfr' with h'
        subst h'
        exact absurd hle (not_le.mpr hexp)
      · intro _ _ _
        exact mapGet?_mapDelete_self cache url
    · rw [if_neg hexp]
      by_cases hra : (match fr.retryAfter with
          | some ra => decide (ra ≠ 0) && decide (now > ra)
          | none => false) = true
      · rw [if_pos hra]
        refine ⟨⟨fun h => by simp at h, ?_⟩, ?_⟩
        · rintro ⟨fr', hfr', -, hras⟩
          injection hfr' with h'
          subst h'
          cases hrae : fr.retryAfter with
          | none => rw [hrae] at hra; simp at hra
          | some ra =>
            rw [hrae] at hra
            simp only [Bool.and_eq_true, decide_eq_true_eq] at hra
            have := hras ra hrae hra.1
            omega
        · intro _ _ _
          exact mapGet?_mapDelete_self cache url
      · rw [if_neg hra]
        refine ⟨⟨fun _ => ⟨fr, rfl, not_lt.mp hexp, ?_⟩, fun _ => rfl⟩, ?_⟩
        · intro ra hrae hra0
          rw [hrae] at hra
          simp only [Bool.and_eq_true, decide_eq_true_eq, not_and, not_lt] at hra
          exact hra hra0
        · intro fr' hfr' hfalse
          exact absurd hfalse (by simp)

/-- Cache for the C6 witness and counterexample: one record for url "u",
written at time 0 with HTTP status 429 and retry-after deadline 60000. -/
def c6cache : List (String × FailureRecord) :=
  [("u", { timestamp := 0, errorCode := 429, retryAfter := some 60000 })]

/-- Witness for C6: at `now = 120000` (inside the 10-minute window but past
the 60-second deadline) the check lets the url through and has purged the
record. -/
theorem C6_failureCache_check_witness :
    mapGet? (hasRecentlyFailed c6cache "u" 120000).2 "u" = none :=
  (C6_failureCache_check c6cache "u" 120000).2
    { timestamp := 0, errorCode := 429, retryAfter := some 60000 }
    (by decide) (by decide)

/-- C6 counterexample: less than 10 minutes have elapsed since the url was
recorded (120000 ms < 600000 ms), so the claim's disjunction ("less than 10
minutes have elapsed … or the retry-after deadline has not passed") says the
request is skipped — but the code allows it through, because the expired
60-second 429 deadline alone re-allows the url. -/
theorem C6_counterexample :
    (∃ fr, mapGet? c6cache "u" = some fr ∧
      120000 - fr.timestamp < FAILED_REQUEST_EXPIRY) ∧
    (hasRecentlyFailed c6cache "u" 120000).1 = false :=
  ⟨⟨{ timestamp := 0, errorCode := 429, retryAfter := some 60000 },
    by decide, by decide⟩, by decide⟩

/-! ## The status dispatch of `makeApiRequest` (api.ts lines 140–176) -/

/-- The three possible outcomes of one `readystatechange` completion. -/
inductive ApiAction where
  | resolveBody
  | retryAfterDelay (delayMs : Nat)
  | rejectWithRecord (status : Nat)
deriving DecidableEq, Repr

/-- The status dispatch of the handler (api.ts lines 142–164): 2xx resolves
(parse errors stay on the resolve path and record nothing); HTTP 429 with
retry budget left schedules `makeApiRequest(url, retryCount+1)` after
`RETRY_DELAY * 2^retryCount` ms; anything else rejects and records the url. -/
def makeApiRequest_dispatch (status retryCount : Nat) : ApiAction :=
  if 200 ≤ status ∧ status < 300 then .resolveBody
  else if status = 429 ∧ retryCount < MAX_RETRIES then
    .retryAfterDelay (RETRY_DELAY * 2 ^ retryCount)
  else .rejectWithRecord status

/-- The failure-cache effect of one dispatch outcome at instant `now`
(api.ts lines 148–163): the resolve and retry paths leave the cache untouched;
the reject path calls `recordFailedRequest` with a 60000 ms retry-after
exactly when the status is 429. -/
def makeApiRequest_cacheEffect (cache : List (String × FailureRecord))
    (url : String) (now : Int) : ApiAction → List (String × FailureRecord)
  | .resolveBody => cache
  | .retryAfterDelay _ => cache
  | .rejectWithRecord status =>
    if status = 429 then recordFailedRequest cache url status (some 60000) now
    else recordFailedRequest cache url status none now

/-- The record `recordFailedRequest` writes for `url` survives its own purge
(its age is 0) and is what a later lookup finds. -/
theorem mapGet?_recordFailedRequest_self (cache : List (String × FailureRecord))
    (url : String) (errorCode : Nat) (retryAfter : Option Int) (now : Int) :
    mapGet? (recordFailedRequest cache url errorCode retryAfter now) url =
      some { timestamp := now, errorCode := errorCode,
             retryAfter := retryAfter.bind
               (fun ra => if ra = 0 then none else some (now + ra)) } := by
  unfold recordFailedRequest
  apply mapGet?_eq_some_of
  · apply List.mem_filter.mpr
    refine ⟨mapSet_self_mem cache url _, ?_⟩
    simp [FAILED_REQUEST_EXPIRY]
  · intro e he hk
    exact mapSet_mem_key e (List.mem_filter.mp he).1 hk

/-- C7: on HTTP 429 with fewer than 2 retries used, the gateway schedules a
retry after `3000 * 2^attempt` ms and the url is not recorded as failed on
that path; on any other non-2xx status — including a 429 with the retry
budget exhausted — the request fails and the url is recorded with timestamp
`now`, and with the absolute retry-after deadline `now + 60000` exactly in
the 429 case. -/
theorem C7_rateLimit_retry_policy (status retryCount : Nat)
    (cache : List (String × FailureRecord)) (url : String) (now : Int) :
    (status = 429 → retryCount < 2 →
      makeApiRequest_dispatch status retryCount =
        .retryAfterDelay (3000 * 2 ^ retryCount) ∧
      makeApiRequest_cacheEffect cache url now
        (makeApiRequest_dispatch status retryCount) = cache) ∧
    (¬(200 ≤ status ∧ status < 300) → (status ≠ 429 ∨ 2 ≤ retryCount) →
      makeApiRequest_dispatch status retryCount = .rejectWithRecord status ∧
      mapGet? (makeApiRequest_cacheEffect cache url now
          (makeApiRequest_dispatch status retryCount)) url =
        some { timestamp := now, errorCode := status,
               retryAfter := if status = 429 then some (now + 60000) else none }) := by
  constructor
  · intro h429 hbudget
    have hn2xx : ¬(200 ≤ status ∧ status < 300) := by omega
    have hdispatch : makeApiRequest_dispatch status retryCount =
        .retryAfterDelay (3000 * 2 ^ retryCount) := by
      unfold makeApiRequest_dispatch
      rw [if_neg hn2xx, if_pos ⟨h429, by simpa [MAX_RETRIES] using hbudget⟩]
      rfl
    exact ⟨hdispatch, by rw [hdispatch]; rfl⟩
  · intro hn2xx hno
    have hdispatch : makeApiRequest_dispatch status retryCount =
        .rejectWithRecord status := by
      unfold makeApiRequest_dispatch
      rw [if_neg hn2xx, if_neg]
      rintro ⟨h429, hlt⟩
      rcases hno with h | h
      · exact h h429
      · simp only [MAX_RETRIES] at hlt; omega
    refine ⟨hdispatch, ?_⟩
    rw [hdispatch]
    unfold makeApiRequest_cacheEffect
    dsimp only
    by_cases h429 : status = 429
    · rw [if_pos h429, if_pos h429, mapGet?_recordFailedRequest_self]
      norm_num
    · rw [if_neg h429, if_neg h429, mapGet?_recordFailedRequest_self]
      rfl

/-- Witness for C7: a first-attempt 429 retries after 3000 ms without touching
the cache, and a 500 both rejects and stores a record with no retry-after. -/
theorem C7_rateLimit_retry_policy_witness :
    (makeApiRequest_dispatch 429 0 = .retryAfterDelay 3000 ∧
      makeApiRequest_cacheEffect [] "u" 7 (makeApiRequest_dispatch 429 0) = []) ∧
    (makeApiRequest_dispatch 500 0 = .rejectWithRecord 500 ∧
      mapGet? (makeApiRequest_cacheEffect [] "u" 7 (makeApiRequest_dispatch 500 0)) "u" =
        some { timestamp := 7, errorCode := 500, retryAfter := none }) := by
  constructor
  · have := (C7_rateLimit_retry_policy 429 0 [] "u" 7).1 rfl (by decide)
    simpa using this
  · have := (C7_rateLimit_retry_policy 500 0 [] "u" 7).2 (by decide) (Or.inl (by decide))
    simpa using this

/-! ## The thread grouping engine (`groupThreads`, api.ts lines 587–840)

The `Tweet` entity is reduced to the fields `groupThreads` reads.  The
in-place mutations `t.thread_position = i; t.thread_index = i` are modelled as
an id-indexed overlay (`posMap`) applied on every read: object identity
coincides with id identity whenever the input has no duplicated ids, and the
claims below depend only on id multisets and array lengths, which agree
regardless. -/

structure GTweet where
  id : String
  authorId : Option String
  created_at : String
  conversation_id : Option String
  thread_id : Option String
  in_reply_to_tweet_id : Option String
  in_reply_to_user_id : Option String
  is_self_thread : Bool
  thread_position : Option Nat
  thread_index : Option Nat
deriving DecidableEq, Repr

/-- JS `x || y` on `string | undefined` values. -/
def jsOrElse (a b : Option String) : Option String := if truthy a then a else b

/-- The value of an optional string (`""` when absent; only read where the
source has established truthiness or uses the value as a plain string). -/
def strVal (a : Option String) : String := a.getD ""

/-- `new Date(a).getTime() - new Date(b).getTime()` with NaN propagation:
`none` when either date is unparseable. -/
def jsDateDiff (pt : String → Option Int) (a b : String) : Option Int := do
  pure ((← pt a) - (← pt b))

/-- The try/catch date comparator used by every sort in `fetchAllReplies` and
`groupThreads` (api.ts lines 375–382, 650–655, 722–728, 748–754, 772–778):
`new Date(...)` never throws (it yields NaN on bad input), so the `BigInt`
catch branch is unreachable, and a comparator that evaluates to NaN is
treated as 0 ("keep the pair in order") by `Array.prototype.sort`. -/
def dateCompare (pt : String → Option Int) (a b : GTweet) : Int :=
  (jsDateDiff pt a.created_at b.created_at).getD 0

/-- "`a` need not be placed after `b`": comparator result ≤ 0. -/
def dateLe (pt : String → Option Int) (a b : GTweet) : Bool :=
  dateCompare pt a b ≤ 0

/-- Apply the position-mutation overlay to a tweet. -/
def applyPos (posMap : List (String × Nat)) (t : GTweet) : GTweet :=
  match mapGet? posMap t.id with
  | some n => { t with thread_position := some n, thread_index := some n }
  | none => t

/-- The sort comparator of the self-thread pass (api.ts lines 640–656):
thread_position when both are set, else thread_index, else creation date. -/
def selfThreadLe (pt : String → Option Int) (posMap : List (String × Nat))
    (a b : GTweet) : Bool :=
  let a := applyPos posMap a
  let b := applyPos posMap b
  match a.thread_position, b.thread_position with
  | some pa, some pb => (pa : Int) - pb ≤ 0
  | _, _ =>
    match a.thread_index, b.thread_index with
    | some ia, some ib => (ia : Int) - ib ≤ 0
    | _, _ => dateLe pt a b

/-- `tweet.conversation_id || tweet.thread_id || tweet.id` (api.ts line 676). -/
def threadKeyOf (t : GTweet) : String :=
  strVal (jsOrElse t.conversation_id (jsOrElse t.thread_id (some t.id)))

/-- The mutable state of one `groupThreads` run: the `processedIds` set, the
`threadMap` (whose `"standalone"` entry is the standalone bucket), and the
position overlay. -/
structure GState where
  processed : List String
  threadMap : List (String × List GTweet)
  posMap : List (String × Nat)
deriving Repr

/-- One step of the first pass (api.ts lines 602–627): a tweet flagged
`is_self_thread` (with a truthy conversation id) joins the group keyed by its
conversation id; otherwise a reply to a same-author tweet in the map joins
the group keyed by `conversation_id || thread_id || in_reply_to_tweet_id`. -/
def buildSelfThreadsStep (tweetMap : List (String × GTweet))
    (st : List (String × List String)) (tweet : GTweet) :
    List (String × List String) :=
  (if tweet.is_self_thread && truthy tweet.conversation_id then
      let k := strVal tweet.conversation_id
      let s1 := setAdd ((mapGet? st k).getD []) tweet.id
      let s2 :=
        if truthy tweet.in_reply_to_tweet_id &&
            mapHas tweetMap (strVal tweet.in_reply_to_tweet_id) then
          setAdd s1 (strVal tweet.in_reply_to_tweet_id)
        else s1
      mapSet st k s2
    else if truthy tweet.in_reply_to_tweet_id && truthy tweet.in_reply_to_user_id then
      match mapGet? tweetMap (strVal tweet.in_reply_to_tweet_id) with
      | some replyToTweet =>
        if replyToTweet.authorId = tweet.authorId then
          let k := strVal (jsOrElse tweet.conversation_id
            (jsOrElse tweet.thread_id tweet.in_reply_to_tweet_id))
          mapSet st k (setAdd (setAdd ((mapGet? st k).getD []) tweet.id)
            (strVal tweet.in_reply_to_tweet_id))
        else st
      | none => st
    else st)

/-- First pass (api.ts lines 600–627): collect the candidate self-thread
groups, an insertion-ordered map of insertion-ordered id sets. -/
def buildSelfThreads (tweetMap : List (String × GTweet)) (tweets : List GTweet) :
    List (String × List String) :=
  tweets.foldl (buildSelfThreadsStep tweetMap) []

/-- Process the collected self-thread groups (api.ts lines 630–670): groups
of two or more ids become threads at once; members are marked processed and
receive positions by the `selfThreadLe` sort. -/
def processSelfThreads (pt : String → Option Int)
    (tweetMap : List (String × GTweet))
    (selfThreads : List (String × List String)) (st : GState) : GState :=
  selfThreads.foldl (fun st entry =>
    if entry.2.length > 1 then
      let threadTweets := entry.2.filterMap (mapGet? tweetMap)
      let sorted := jsSort (selfThreadLe pt st.posMap) threadTweets
      if sorted.length > 1 then
        { processed := sorted.foldl (fun p t => setAdd p t.id) st.processed,
          threadMap := mapSet st.threadMap entry.1 sorted,
          posMap := sorted.enum.foldl (fun pm e => mapSet pm e.2.id e.1) st.posMap }
      else st
    else st) st

/-- The residual-pass membership predicate (api.ts lines 679–685). -/
def residualMember (tweetMap : List (String × GTweet)) (seed : GTweet)
    (threadId : String) (processed : List String) (t : GTweet) : Bool :=
  !(processed.contains t.id) &&
  ((truthy t.conversation_id && strVal t.conversation_id = threadId) ||
   (truthy t.thread_id && strVal t.thread_id = threadId) ||
   (truthy t.in_reply_to_tweet_id && mapHas tweetMap (strVal t.in_reply_to_tweet_id) &&
    t.authorId = seed.authorId))

/-- One step of the reply adjacency map construction (api.ts lines 702–709). -/
def buildReplyMapStep (rm : List (String × List GTweet)) (t : GTweet) :
    List (String × List GTweet) :=
  if truthy t.in_reply_to_tweet_id then
    let k := strVal t.in_reply_to_tweet_id
    mapSet rm k (((mapGet? rm k).getD []) ++ [t])
  else rm

/-- The reply adjacency map of the residual pass (api.ts lines 702–709). -/
def buildReplyMap (members : List GTweet) : List (String × List GTweet) :=
  members.foldl buildReplyMapStep []

/-- The loop of the source's recursive `findReplies` (api.ts lines 743–766)
over one sorted reply list; `walkNode` expands one accepted reply. -/
def walkList (walkNode : String → List String → List GTweet × List String) :
    List GTweet → List String → List GTweet × List String
  | [], proc => ([], proc)
  | r :: rs, proc =>
    if proc.contains r.id then walkList walkNode rs proc
    else
      let sub := walkNode r.id (proc ++ [r.id])
      let rest := walkList walkNode rs sub.2
      (r :: (sub.1 ++ rest.1), rest.2)

/-- `findReplies(tweetId, depth)` with `fuel = 11 - depth`: the source guards
`depth > 10`, so every call at depth ≤ 10 looks up and expands its node and
the call at depth 11 returns `[]` — `fuel = 0` is exactly that call. -/
def findReplies (pt : String → Option Int) (rm : List (String × List GTweet)) :
    Nat → String → List String → List GTweet × List String
  | 0, _, proc => ([], proc)
  | fuel + 1, tid, proc =>
    match mapGet? rm tid with
    | none => ([], proc)
    | some replies => walkList (findReplies pt rm fuel) (jsSort (dateLe pt) replies) proc

/-- Push a tweet onto the `'standalone'` bucket (api.ts lines 689–693,
795–798, 803–810). -/
def standalonePush (m : List (String × List GTweet)) (t : GTweet) :
    List (String × List GTweet) :=
  mapSet m "standalone" (((mapGet? m "standalone").getD []) ++ [t])

/-- Commit a residual-pass thread (api.ts lines 784–799): length ≥ 2 gets
positions and a `threadMap` entry (a `set` that overwrites any previous entry
under the same key); a single survivor moves to standalone. -/
def finishThread (st : GState) (threadId : String) (thread : List GTweet)
    (proc : List String) : GState :=
  match thread with
  | _ :: _ :: _ =>
    { processed := proc,
      threadMap := mapSet st.threadMap threadId thread,
      posMap := thread.enum.foldl (fun pm e => mapSet pm e.2.id e.1) st.posMap }
  | [t0] =>
    { st with processed := proc, threadMap := standalonePush st.threadMap t0 }
  | [] => { st with processed := proc }

/-- One iteration of the residual grouping pass (api.ts lines 673–800). -/
def residualStep (pt : String → Option Int) (tweetMap : List (String × GTweet))
    (tweets : List GTweet) (st : GState) (tweet : GTweet) : GState :=
  if st.processed.contains tweet.id then st
  else
    let threadId := threadKeyOf tweet
    let members := tweets.filter (residualMember tweetMap tweet threadId st.processed)
    if members.length ≤ 1 then
      { st with processed := setAdd st.processed tweet.id,
                threadMap := standalonePush st.threadMap tweet }
    else
      let replyMap := buildReplyMap members
      let root? :=
        match members.find? (fun t =>
          !(truthy t.in_reply_to_tweet_id) ||
          !(members.any (fun o => o.id = strVal t.in_reply_to_tweet_id))) with
        | some r => some r
        | none => (jsSort (dateLe pt) members).head?
      match root? with
      | some root =>
        let walked := findReplies pt replyMap 11 root.id (setAdd st.processed root.id)
        finishThread st threadId (root :: walked.1) walked.2
      | none =>
        -- `rootTweet` cannot be undefined when `members.length ≥ 2`; this is
        -- the translation of the dead `else` at api.ts lines 770–782
        let sorted := jsSort (dateLe pt) members
        finishThread st threadId sorted
          (sorted.foldl (fun p t => setAdd p t.id) st.processed)

/-- The final pass (api.ts lines 803–811): every untouched tweet becomes
standalone. -/
def leftoverStep (st : GState) (tweet : GTweet) : GState :=
  if st.processed.contains tweet.id then st
  else { st with processed := setAdd st.processed tweet.id,
                 threadMap := standalonePush st.threadMap tweet }

/-- The source's `Thread` object `{id, tweets, author, created_at}` (author
reduced to its id, the only author field `groupThreads` reads). -/
structure GThread where
  id : String
  tweets : List GTweet
  authorId : Option String
  created_at : String
deriving DecidableEq, Repr

/-- One element of `groupThreads`' result array. -/
inductive GItem where
  | tweet (t : GTweet)
  | thread (th : GThread)
deriving DecidableEq, Repr

/-- Result building (api.ts lines 814–830): spread the standalone bucket,
wrap arrays of length > 1 into Thread objects (author/created_at come from
the array's first element), silently skip anything else. -/
def buildResultStep (posMap : List (String × Nat)) (res : List GItem)
    (entry : String × List GTweet) : List GItem :=
  if entry.1 = "standalone" then
    res ++ entry.2.map (fun t => GItem.tweet (applyPos posMap t))
  else
    match entry.2 with
    | t0 :: _ :: _ =>
      res ++ [GItem.thread {
        id := entry.1,
        tweets := entry.2.map (applyPos posMap),
        authorId := t0.authorId,
        created_at := t0.created_at }]
    | _ => res

def buildResult (posMap : List (String × Nat))
    (threadMap : List (String × List GTweet)) : List GItem :=
  threadMap.foldl (buildResultStep posMap) []

/-- The representative date string of an output element (api.ts lines
836–837): a Thread is represented by `tweets[0].created_at` (threads are
built non-empty; by construction the stored `created_at` equals it). -/
def itemDateStr : GItem → String
  | .thread th => ((th.tweets.head?).map (·.created_at)).getD th.created_at
  | .tweet t => t.created_at

/-- The final newest-first comparator (api.ts lines 835–839):
`dateB - dateA ≤ 0` keeps the pair in order, NaN ↦ 0. -/
def groupThreadsSortLe (pt : String → Option Int) (a b : GItem) : Bool :=
  (jsDateDiff pt (itemDateStr b) (itemDateStr a)).getD 0 ≤ 0

/-- `groupThreads` (api.ts lines 587–840). -/
def groupThreads (pt : String → Option Int) (tweets : List GTweet) : List GItem :=
  let tweetMap := tweets.foldl (fun m t => mapSet m t.id t) []
  let selfThreads := buildSelfThreads tweetMap tweets
  let st1 := processSelfThreads pt tweetMap selfThreads
    { processed := [], threadMap := [], posMap := [] }
  let st2 := tweets.foldl (residualStep pt tweetMap tweets) st1
  let st3 := tweets.foldl leftoverStep st2
  jsSort (groupThreadsSortLe pt) (buildResult st3.posMap st3.threadMap)

/-- All post ids carried by one output element. -/
def itemIds : GItem → List String
  | .tweet t => [t.id]
  | .thread th => th.tweets.map (·.id)

/-- All post ids of a result, in output order. -/
def outputIds (items : List GItem) : List String := items.flatMap itemIds

/-! ## Sortedness of `jsSort` under a relation that is total and transitive
on the elements involved -/

theorem jsOrderedInsert_pairwise {le : α → α → Bool} {P : α → Prop}
    (htot : ∀ a b, P a → P b → le a b = true ∨ le b a = true)
    (htrans : ∀ a b c, P a → P b → P c → le a b = true → le b c = true → le a c = true)
    {x : α} {l : List α} (hx : P x) (hl : ∀ y ∈ l, P y)
    (hs : List.Pairwise (fun a b => le a b = true) l) :
    List.Pairwise (fun a b => le a b = true) (jsOrderedInsert le x l) := by
  induction l with
  | nil => simp [jsOrderedInsert]
  | cons y ys ih =>
    have hy : P y := hl y (List.mem_cons_self y ys)
    have hys : ∀ z ∈ ys, P z := fun z hz => hl z (List.mem_cons_of_mem y hz)
    rcases List.pairwise_cons.mp hs with ⟨hyz, hsys⟩
    unfold jsOrderedInsert
    split
    · rename_i hxy
      refine List.pairwise_cons.mpr ⟨?_, hs⟩
      intro z hz
      rcases List.mem_cons.mp hz with rfl | hz'
      · exact hxy
      · exact htrans x y z hx hy (hys z hz') hxy (hyz z hz')
    · rename_i hxy
      refine List.pairwise_cons.mpr ⟨?_, ih hys hsys⟩
      intro z hz
      have hz' := (jsOrderedInsert_perm le x ys).mem_iff.mp hz
      rcases List.mem_cons.mp hz' with rfl | hz''
      · rcases htot y z hy hx with h | h
        · exact h
        · exact absurd h hxy
      · exact hyz z hz''

theorem jsSort_pairwise {le : α → α → Bool} {P : α → Prop}
    (htot : ∀ a b, P a → P b → le a b = true ∨ le b a = true)
    (htrans : ∀ a b c, P a → P b → P c → le a b = true → le b c = true → le a c = true)
    {l : List α} (hl : ∀ y ∈ l, P y) :
    List.Pairwise (fun a b => le a b = true) (jsSort le l) := by
  induction l with
  | nil => simp [jsSort]
  | cons x xs ih =>
    have hx : P x := hl x (List.mem_cons_self x xs)
    have hxs : ∀ y ∈ xs, P y := fun y hy => hl y (List.mem_cons_of_mem x hy)
    exact jsOrderedInsert_pairwise htot htrans hx
      (fun y hy => hxs y (jsSort_mem.mp hy)) (ih hxs)

/-! ## Reply post-processing of `fetchAllReplies` (api.ts lines 372–392) -/

/-- The post-accumulation step of `fetchAllReplies` (api.ts lines 372–389):
when more than one reply was gathered, sort chronologically (the usual
try/catch comparator) and assign `thread_position`/`thread_index` = array
index; with one reply or none, the list is returned untouched. -/
def fetchAllReplies_postProcess (pt : String → Option Int)
    (allReplies : List GTweet) : List GTweet :=
  if allReplies.length > 1 then
    (jsSort (dateLe pt) allReplies).mapIdx (fun i t =>
      { t with thread_position := some i, thread_index := some i })
  else allReplies

/-- C8 counterexample: a reply-chain fetch that accumulates a single reply
returns it untouched — its `threadPosition` stays unset rather than becoming
its array index 0, so "every returned reply has threadPosition … equal to its
array index" fails. -/
def c8Reply : GTweet :=
  { id := "1", authorId := some "u", created_at := "d",
    conversation_id := none, thread_id := none,
    in_reply_to_tweet_id := none, in_reply_to_user_id := none,
    is_self_thread := false, thread_position := none, thread_index := none }

theorem C8_counterexample :
    ¬ (∀ i (h : i < (fetchAllReplies_postProcess (fun _ => none) [c8Reply]).length),
        ((fetchAllReplies_postProcess (fun _ => none) [c8Reply]).get ⟨i, h⟩).thread_position
          = some i) := by
  intro hcl
  exact absurd (hcl 0 (by decide)) (by decide)

/-- C8 (amended): when at least two replies accumulate and every `createdAt`
parses, the returned list is a permutation of the input (compared by id),
sorted non-strictly ascending by parsed `createdAt`, and every returned reply
carries `threadPosition = threadIndex = its array index`; ties in `createdAt`
keep their order, and a single accumulated reply is returned unchanged with
its positions unset.  (The big-integer id fallback is unreachable:
`new Date` yields NaN rather than throwing.) -/
theorem C8_reply_postprocess (pt : String → Option Int) (replies : List GTweet)
    (hlen : 2 ≤ replies.length)
    (hparse : ∀ t ∈ replies, (pt t.created_at).isSome) :
    (∀ i (h : i < (fetchAllReplies_postProcess pt replies).length),
      ((fetchAllReplies_postProcess pt replies).get ⟨i, h⟩).thread_position = some i ∧
      ((fetchAllReplies_postProcess pt replies).get ⟨i, h⟩).thread_index = some i) ∧
    List.Pairwise (fun a b => dateLe pt a b = true)
      (fetchAllReplies_postProcess pt replies) ∧
    ((fetchAllReplies_postProcess pt replies).map (·.id)).Perm
      (replies.map (·.id)) := by
  have hgt : replies.length > 1 := hlen
  unfold fetchAllReplies_postProcess
  rw [if_pos hgt]
  set sorted := jsSort (dateLe pt) replies with hsorted
  refine ⟨?_, ?_, ?_⟩
  · intro i h
    rw [List.get_eq_getElem, List.getElem_mapIdx]
    exact ⟨rfl, rfl⟩
  · -- sortedness: dateLe ignores the position fields that mapIdx rewrites
    have hpair : List.Pairwise (fun a b => dateLe pt a b = true) sorted := by
      apply jsSort_pairwise (P := fun t => (pt t.created_at).isSome = true)
      · intro a b ha hb
        rcases Option.isSome_iff_exists.mp ha with ⟨x, hx⟩
        rcases Option.isSome_iff_exists.mp hb with ⟨y, hy⟩
        simp only [dateLe, dateCompare, jsDateDiff, hx, hy, Option.bind_eq_bind,
          Option.some_bind, Option.pure_def, Option.getD_some, decide_eq_true_eq]
        omega
      · intro a b c ha hb hc hab hbc
        rcases Option.isSome_iff_exists.mp ha with ⟨x, hx⟩
        rcases Option.isSome_iff_exists.mp hb with ⟨y, hy⟩
        rcases Option.isSome_iff_exists.mp hc with ⟨z, hz⟩
        simp only [dateLe, dateCompare, jsDateDiff, hx, hy, hz, Option.bind_eq_bind,
          Option.some_bind, Option.pure_def, Option.getD_some, decide_eq_true_eq]
          at hab hbc ⊢
        omega
      · exact fun t ht => hparse t ht
    rw [List.mapIdx_eq_enum_map, List.pairwise_map]
    have henum : List.Pairwise
        (fun a b : Nat × GTweet => dateLe pt a.2 b.2 = true) sorted.enum := by
      apply (List.pairwise_map (f := Prod.snd)
        (R := fun a b : GTweet => dateLe pt a b = true)).mp
      rw [List.enum_map_snd]
      exact hpair
    refine henum.imp ?_
    intro a b hab
    exact hab
  · have : (sorted.mapIdx (fun i t =>
        { t with thread_position := some i, thread_index := some i })).map (·.id)
        = sorted.map (·.id) := by
      rw [List.mapIdx_eq_enum_map, List.map_map]
      have : ((fun t : GTweet => t.id) ∘ Function.uncurry (fun i t =>
          { t with thread_position := some i, thread_index := some i : GTweet }))
          = (fun p : Nat × GTweet => p.2.id) := by
        funext p; rfl
      rw [this]
      have h2 : (fun p : Nat × GTweet => p.2.id)
          = (fun t : GTweet => t.id) ∘ Prod.snd := rfl
      rw [h2, ← List.map_map, List.enum_map_snd]
    rw [this]
    exact (jsSort_perm (dateLe pt) replies).map (·.id)

/-- `pt` for the C8 witness: every date parses (to its string length). -/
def c8pt : String → Option Int := fun s => some s.length

def c8wA : GTweet := { c8Reply with id := "10", created_at := "xx" }
def c8wB : GTweet := { c8Reply with id := "11", created_at := "x" }

/-- Witness for C8's amended theorem at a concrete two-reply list. -/
theorem C8_reply_postprocess_witness :
    ((fetchAllReplies_postProcess c8pt [c8wA, c8wB]).map (·.id)).Perm
      ([c8wA, c8wB].map (·.id)) :=
  (C8_reply_postprocess c8pt [c8wA, c8wB] (by decide)
    (by intro t ht; fin_cases ht <;> decide)).2.2

/-! ## Bookkeeping lemmas for the grouping engine -/

theorem applyPos_id (posMap : List (String × Nat)) (t : GTweet) :
    (applyPos posMap t).id = t.id := by
  unfold applyPos
  split <;> rfl

/-- The keys of an association list, in order. -/
def mapKeys (m : List (String × α)) : List String := m.map (·.1)

/-- All tweet ids stored in a thread map, in entry order. -/
def mapTweetIds (m : List (String × List GTweet)) : List String :=
  m.flatMap (fun e => e.2.map (·.id))

theorem mapTweetIds_nil : mapTweetIds [] = [] := rfl

theorem mapTweetIds_cons (e : String × List GTweet) (m : List (String × List GTweet)) :
    mapTweetIds (e :: m) = e.2.map (·.id) ++ mapTweetIds m := by
  simp [mapTweetIds]

theorem mapTweetIds_append (a b : List (String × List GTweet)) :
    mapTweetIds (a ++ b) = mapTweetIds a ++ mapTweetIds b := by
  simp [mapTweetIds]

theorem setAdd_sub (s : List String) (x : String) : s ⊆ setAdd s x := by
  unfold setAdd
  split
  · exact fun _ h => h
  · exact fun y hy => List.mem_append.mpr (Or.inl hy)

theorem mem_setAdd_self (s : List String) (x : String) : x ∈ setAdd s x := by
  unfold setAdd
  split
  · rename_i h
    simpa using h
  · simp

theorem mem_setAdd {s : List String} {x y : String} (h : y ∈ setAdd s x) :
    y ∈ s ∨ y = x := by
  unfold setAdd at h
  split at h
  · exact Or.inl h
  · rcases List.mem_append.mp h with h | h
    · exact Or.inl h
    · simp at h
      exact Or.inr h

theorem mapHas_false_iff {m : List (String × α)} {k : String} :
    mapHas m k = false ↔ ∀ e ∈ m, e.1 ≠ k := by
  unfold mapHas
  simp

theorem mapSet_cons_ne {e : String × α} {m : List (String × α)} {k : String} {v : α}
    (h : e.1 ≠ k) : mapSet (e :: m) k v = e :: mapSet m k v := by
  unfold mapSet
  have hh : mapHas (e :: m) k = mapHas m k := by
    unfold mapHas
    simp [h]
  rw [hh]
  split
  · simp [h]
  · simp

theorem mapSet_cons_eq {e : String × α} {m : List (String × α)} {k : String} {v : α}
    (h : e.1 = k) (hrest : ∀ x ∈ m, x.1 ≠ k) : mapSet (e :: m) k v = (k, v) :: m := by
  unfold mapSet
  have hh : mapHas (e :: m) k = true := by
    unfold mapHas
    simp [h]
  rw [hh]
  simp only [if_true, List.map_cons, if_pos h]
  congr 1
  calc List.map (fun e => if e.1 = k then (k, v) else e) m
      = List.map id m :=
        List.map_congr_left (fun x hx => by rw [if_neg (hrest x hx)]; rfl)
    _ = m := List.map_id m

theorem mapGet?_cons_ne {e : String × α} {m : List (String × α)} {k : String}
    (h : e.1 ≠ k) : mapGet? (e :: m) k = mapGet? m k := by
  unfold mapGet?
  rw [List.find?_cons_of_neg _ (by simp [h])]

theorem mapGet?_cons_eq {e : String × α} {m : List (String × α)} {k : String}
    (h : e.1 = k) : mapGet? (e :: m) k = some e.2 := by
  unfold mapGet?
  rw [List.find?_cons_of_pos _ (by simp [h])]
  rfl

theorem mapKeys_mapSet (m : List (String × α)) (k : String) (v : α) :
    mapKeys (mapSet m k v) = if mapHas m k then mapKeys m else mapKeys m ++ [k] := by
  unfold mapSet
  split
  · unfold mapKeys
    rw [List.map_map]
    apply List.map_congr_left
    intro e _
    by_cases h : e.1 = k
    · simp [h]
    · simp [h]
  · simp [mapKeys]

theorem mapKeys_nodup_mapSet {m : List (String × α)} {k : String} {v : α}
    (h : (mapKeys m).Nodup) : (mapKeys (mapSet m k v)).Nodup := by
  rw [mapKeys_mapSet]
  split
  · exact h
  · rename_i hhas
    rw [List.nodup_append]
    refine ⟨h, List.nodup_singleton k, ?_⟩
    intro x hx hk
    simp only [List.mem_singleton] at hk
    subst hk
    rcases List.mem_map.mp hx with ⟨e, he, hek⟩
    exact (mapHas_false_iff.mp (Bool.eq_false_iff.mpr hhas) e he) hek

/-- Appending one tweet to the standalone bucket permutes the stored ids to
`old ids ++ [t.id]` (given unique keys). -/
theorem mapTweetIds_standalonePush (t : GTweet) :
    ∀ m : List (String × List GTweet), (mapKeys m).Nodup →
      (mapTweetIds (standalonePush m t)).Perm (mapTweetIds m ++ [t.id]) := by
  intro m
  induction m with
  | nil =>
    intro _
    unfold standalonePush
    simp [mapGet?, mapSet, mapHas, mapTweetIds]
  | cons e rest ih =>
    intro hkeys
    have hkeys' : (mapKeys rest).Nodup := (List.nodup_cons.mp hkeys).2
    by_cases he : e.1 = "standalone"
    · have hrest : ∀ x ∈ rest, x.1 ≠ "standalone" := by
        intro x hx hxk
        have : e.1 ∉ mapKeys rest := (List.nodup_cons.mp hkeys).1
        exact this (List.mem_map.mpr ⟨x, hx, by rw [hxk, he]⟩)
      unfold standalonePush
      rw [mapGet?_cons_eq he, Option.getD_some, mapSet_cons_eq he hrest]
      rw [mapTweetIds_cons, mapTweetIds_cons]
      simp only [List.map_append]
      rw [List.append_assoc, List.append_assoc]
      exact List.Perm.append_left _ List.perm_append_comm
    · have hpush : standalonePush (e :: rest) t = e :: standalonePush rest t := by
        unfold standalonePush
        rw [mapGet?_cons_ne he, mapSet_cons_ne he]
      rw [hpush, mapTweetIds_cons, mapTweetIds_cons, List.append_assoc]
      exact List.Perm.append_left _ (ih hkeys')

theorem subperm_nodup {l₁ l₂ : List String} (h : List.Subperm l₁ l₂)
    (hn : l₂.Nodup) : l₁.Nodup := by
  rcases h with ⟨l, hperm, hsub⟩
  exact hperm.nodup_iff.mp (hsub.nodup hn)

theorem subperm_subset {l₁ l₂ : List String} (h : List.Subperm l₁ l₂) : l₁ ⊆ l₂ := by
  rcases h with ⟨l, hperm, hsub⟩
  exact fun x hx => hsub.subset (hperm.mem_iff.mpr hx)

/-- Setting a key (fresh or overwriting) keeps the stored ids inside
`new value's ids ++ old ids` as a sub-permutation (given unique keys). -/
theorem mapTweetIds_mapSet_subperm (k : String) (w : List GTweet) :
    ∀ m : List (String × List GTweet), (mapKeys m).Nodup →
      List.Subperm (mapTweetIds (mapSet m k w)) (w.map (·.id) ++ mapTweetIds m) := by
  intro m
  induction m with
  | nil =>
    intro _
    unfold mapSet mapHas
    simp only [List.any_nil, Bool.false_eq_true, if_false, List.nil_append]
    exact (List.Perm.refl _).subperm
  | cons e rest ih =>
    intro hkeys
    have hkeys' : (mapKeys rest).Nodup := (List.nodup_cons.mp hkeys).2
    by_cases he : e.1 = k
    · have hrest : ∀ x ∈ rest, x.1 ≠ k := by
        intro x hx hxk
        have : e.1 ∉ mapKeys rest := (List.nodup_cons.mp hkeys).1
        exact this (List.mem_map.mpr ⟨x, hx, by rw [hxk, he]⟩)
      rw [mapSet_cons_eq he hrest, mapTweetIds_cons, mapTweetIds_cons]
      simp only
      apply List.Sublist.subperm
      apply List.Sublist.append (List.Sublist.refl _)
      exact List.sublist_append_right _ _
    · rw [mapSet_cons_ne he, mapTweetIds_cons, mapTweetIds_cons]
      have step := (List.subperm_append_left (e.2.map (·.id))).mpr (ih hkeys')
      refine step.trans ?_
      have : (e.2.map (·.id) ++ (w.map (·.id) ++ mapTweetIds rest)).Perm
          (w.map (·.id) ++ (e.2.map (·.id) ++ mapTweetIds rest)) := by
        rw [← List.append_assoc, ← List.append_assoc]
        exact List.Perm.append_right _ List.perm_append_comm
      exact this.subperm

/-! ## The walk of `findReplies` marks exactly what it emits -/

/-- What `findReplies`-style expansion functions guarantee: the returned
processed set is the input plus the emitted ids in order, and the emitted ids
are fresh and pairwise distinct. -/
def WalkSpec (f : String → List String → List GTweet × List String) : Prop :=
  ∀ tid proc,
    (f tid proc).2 = proc ++ ((f tid proc).1.map (·.id)) ∧
    (∀ i ∈ (f tid proc).1.map (·.id), i ∉ proc) ∧
    ((f tid proc).1.map (·.id)).Nodup

theorem walkList_spec {f : String → List String → List GTweet × List String}
    (hf : WalkSpec f) :
    ∀ (l : List GTweet) (proc : List String),
      (walkList f l proc).2 = proc ++ ((walkList f l proc).1.map (·.id)) ∧
      (∀ i ∈ (walkList f l proc).1.map (·.id), i ∉ proc) ∧
      ((walkList f l proc).1.map (·.id)).Nodup := by
  intro l
  induction l with
  | nil =>
    intro proc
    simp [walkList]
  | cons r rs ih =>
    intro proc
    unfold walkList
    split
    · exact ih proc
    · rename_i hr
      have hrni : r.id ∉ proc := by
        intro h
        exact hr (by simpa using h)
      obtain ⟨hsub2, hsubfresh, hsubnd⟩ := hf r.id (proc ++ [r.id])
      obtain ⟨hrest2, hrestfresh, hrestnd⟩ := ih (f r.id (proc ++ [r.id])).2
      simp only [List.map_cons, List.map_append]
      refine ⟨?_, ?_, ?_⟩
      · rw [hrest2, hsub2]
        simp [List.append_assoc]
      · intro i hi
        rcases List.mem_cons.mp hi with rfl | hi'
        · exact hrni
        · rcases List.mem_append.mp hi' with hi'' | hi''
          · intro hip
            exact hsubfresh i hi'' (List.mem_append.mpr (Or.inl hip))
          · intro hip
            apply hrestfresh i hi''
            rw [hsub2]
            exact List.mem_append.mpr (Or.inl (List.mem_append.mpr (Or.inl hip)))
      · rw [List.nodup_cons]
        constructor
        · intro h
          rcases List.mem_append.mp h with h' | h'
          · exact hsubfresh r.id h' (List.mem_append.mpr (Or.inr (by simp)))
          · apply hrestfresh r.id h'
            rw [hsub2]
            exact List.mem_append.mpr
              (Or.inl (List.mem_append.mpr (Or.inr (by simp))))
        · rw [List.nodup_append]
          refine ⟨hsubnd, hrestnd, ?_⟩
          intro i hi hic
          apply hrestfresh i hic
          rw [hsub2]
          exact List.mem_append.mpr (Or.inr hi)

theorem findReplies_spec (pt : String → Option Int)
    (rm : List (String × List GTweet)) :
    ∀ fuel : Nat, WalkSpec (findReplies pt rm fuel) := by
  intro fuel
  induction fuel with
  | zero =>
    intro tid proc
    simp [findReplies]
  | succ fuel ih =>
    intro tid proc
    unfold findReplies
    cases mapGet? rm tid with
    | none => simp
    | some replies =>
      exact walkList_spec ih (jsSort (dateLe pt) replies) proc

/-! ## The dedup invariant of the residual and leftover passes -/

/-- The invariant: thread-map keys are unique, the stored ids are pairwise
distinct, and every stored id has been marked processed. -/
def DedupInv (proc : List String) (tm : List (String × List GTweet)) : Prop :=
  (mapKeys tm).Nodup ∧ (mapTweetIds tm).Nodup ∧ ∀ i ∈ mapTweetIds tm, i ∈ proc

theorem dedupInv_mono {proc proc' : List String} {tm : List (String × List GTweet)}
    (h : DedupInv proc tm) (hsub : ∀ i ∈ proc, i ∈ proc') : DedupInv proc' tm :=
  ⟨h.1, h.2.1, fun i hi => hsub i (h.2.2 i hi)⟩

theorem dedupInv_push {proc proc' : List String} {tm : List (String × List GTweet)}
    {t : GTweet} (h : DedupInv proc tm) (hnp : t.id ∉ proc)
    (hproc : ∀ i, (i ∈ proc ∨ i = t.id) → i ∈ proc') :
    DedupInv proc' (standalonePush tm t) := by
  obtain ⟨hk, hn, hp⟩ := h
  have hperm := mapTweetIds_standalonePush t tm hk
  refine ⟨mapKeys_nodup_mapSet hk, ?_, ?_⟩
  · apply hperm.nodup_iff.mpr
    rw [List.nodup_append]
    refine ⟨hn, List.nodup_singleton _, ?_⟩
    intro i hi hit
    simp only [List.mem_singleton] at hit
    subst hit
    exact hnp (hp _ hi)
  · intro i hi
    rcases List.mem_append.mp (hperm.mem_iff.mp hi) with hi' | hi'
    · exact hproc i (Or.inl (hp i hi'))
    · simp only [List.mem_singleton] at hi'
      exact hproc i (Or.inr hi')

theorem dedupInv_threadSet {proc proc' : List String}
    {tm : List (String × List GTweet)} {k : String} {thread : List GTweet}
    (h : DedupInv proc tm)
    (hids : (thread.map (·.id)).Nodup)
    (hdisj : ∀ i ∈ thread.map (·.id), i ∉ proc)
    (hproc : ∀ i, (i ∈ proc ∨ i ∈ thread.map (·.id)) → i ∈ proc') :
    DedupInv proc' (mapSet tm k thread) := by
  obtain ⟨hk, hn, hp⟩ := h
  have hsp := mapTweetIds_mapSet_subperm k thread tm hk
  refine ⟨mapKeys_nodup_mapSet hk, ?_, ?_⟩
  · apply subperm_nodup hsp
    rw [List.nodup_append]
    refine ⟨hids, hn, ?_⟩
    intro i hi hic
    exact hdisj i hi (hp i hic)
  · intro i hi
    rcases List.mem_append.mp (subperm_subset hsp hi) with hi' | hi'
    · exact hproc i (Or.inr hi')
    · exact hproc i (Or.inl (hp i hi'))

theorem dedupInv_finishThread {st : GState} {threadId : String}
    {thread : List GTweet} {proc' : List String}
    (h : DedupInv st.processed st.threadMap)
    (hids : (thread.map (·.id)).Nodup)
    (hdisj : ∀ i ∈ thread.map (·.id), i ∉ st.processed)
    (hproc : ∀ i, (i ∈ st.processed ∨ i ∈ thread.map (·.id)) → i ∈ proc') :
    DedupInv (finishThread st threadId thread proc').processed
             (finishThread st threadId thread proc').threadMap := by
  match thread with
  | [] =>
    exact dedupInv_mono h (fun i hi => hproc i (Or.inl hi))
  | [t0] =>
    exact dedupInv_push h (hdisj t0.id (by simp))
      (fun i hi => hproc i (by simpa using hi))
  | t0 :: t1 :: rest =>
    exact dedupInv_threadSet h hids hdisj hproc

theorem not_mem_of_contains_false {s : List String} {x : String}
    (h : ¬ s.contains x = true) : x ∉ s := fun hx => h (by simpa using hx)

theorem residualMember_unproc {tweetMap : List (String × GTweet)} {seed : GTweet}
    {threadId : String} {proc : List String} {t : GTweet}
    (h : residualMember tweetMap seed threadId proc t = true) : t.id ∉ proc := by
  unfold residualMember at h
  rw [Bool.and_eq_true] at h
  intro hx
  have hc : proc.contains t.id = true := by simpa using hx
  rw [hc] at h
  simp at h

theorem dedupInv_residualStep (pt : String → Option Int)
    (tweetMap : List (String × GTweet)) (tweets : List GTweet)
    {st : GState} (tweet : GTweet)
    (h : DedupInv st.processed st.threadMap) :
    DedupInv (residualStep pt tweetMap tweets st tweet).processed
             (residualStep pt tweetMap tweets st tweet).threadMap := by
  unfold residualStep
  dsimp only
  split
  · exact h
  · rename_i hcont
    split
    · -- members ≤ 1 → standalone push of the seed
      refine dedupInv_push h (not_mem_of_contains_false hcont) ?_
      intro i hi
      rcases hi with hi | rfl
      · exact setAdd_sub _ _ hi
      · exact mem_setAdd_self _ _
    · rename_i hgt
      split
      · -- root found: walk and commit
        rename_i root heq
        have hrootmem : root ∈ tweets.filter
            (residualMember tweetMap tweet (threadKeyOf tweet) st.processed) := by
          split at heq
          · rename_i r hfind
            injection heq with h'
            subst h'
            exact List.mem_of_find?_eq_some hfind
          · rename_i hfind
            cases hjs : jsSort (dateLe pt) (tweets.filter
                (residualMember tweetMap tweet (threadKeyOf tweet) st.processed)) with
            | nil => rw [hjs] at heq; simp at heq
            | cons a l =>
              rw [hjs] at heq
              simp only [List.head?_cons, Option.some.injEq] at heq
              subst heq
              exact jsSort_mem.mp (by rw [hjs]; exact List.mem_cons_self a l)
        have hrootunproc : root.id ∉ st.processed :=
          residualMember_unproc (List.mem_filter.mp hrootmem).2
        obtain ⟨hw2, hwfresh, hwnd⟩ :=
          findReplies_spec pt
            (buildReplyMap (tweets.filter
              (residualMember tweetMap tweet (threadKeyOf tweet) st.processed)))
            11 root.id (setAdd st.processed root.id)
        apply dedupInv_finishThread h
        · rw [List.map_cons, List.nodup_cons]
          exact ⟨fun hmem => hwfresh _ hmem (mem_setAdd_self _ _), hwnd⟩
        · intro i hi
          rw [List.map_cons] at hi
          rcases List.mem_cons.mp hi with rfl | hi'
          · exact hrootunproc
          · intro hip
            exact hwfresh i hi' (setAdd_sub _ _ hip)
        · intro i hi
          rw [hw2]
          rcases hi with hi | hi
          · exact List.mem_append.mpr (Or.inl (setAdd_sub _ _ hi))
          · rw [List.map_cons] at hi
            rcases List.mem_cons.mp hi with rfl | hi'
            · exact List.mem_append.mpr (Or.inl (mem_setAdd_self _ _))
            · exact List.mem_append.mpr (Or.inr hi')
      · -- no root: only possible when the member list is empty
        rename_i heq
        exfalso
        split at heq
        · rename_i r hfind
          cases heq
        · rename_i hfind
          have hnil := List.head?_eq_none_iff.mp heq
          have hperm := jsSort_perm (dateLe pt) (tweets.filter
            (residualMember tweetMap tweet (threadKeyOf tweet) st.processed))
          rw [hnil] at hperm
          have hml : tweets.filter
              (residualMember tweetMap tweet (threadKeyOf tweet) st.processed) = [] :=
            (hperm.symm).eq_nil
          rw [hml] at hgt
          simp at hgt

theorem dedupInv_leftoverStep {st : GState} (tweet : GTweet)
    (h : DedupInv st.processed st.threadMap) :
    DedupInv (leftoverStep st tweet).processed (leftoverStep st tweet).threadMap := by
  unfold leftoverStep
  split
  · exact h
  · rename_i hcont
    refine dedupInv_push h (not_mem_of_contains_false hcont) ?_
    intro i hi
    rcases hi with hi | rfl
    · exact setAdd_sub _ _ hi
    · exact mem_setAdd_self _ _

theorem dedupInv_residual_fold (pt : String → Option Int)
    (tweetMap : List (String × GTweet)) (tweets : List GTweet) :
    ∀ (l : List GTweet) (st : GState), DedupInv st.processed st.threadMap →
      DedupInv ((l.foldl (residualStep pt tweetMap tweets) st)).processed
               ((l.foldl (residualStep pt tweetMap tweets) st)).threadMap := by
  intro l
  induction l with
  | nil => exact fun st h => h
  | cons t l ih =>
    intro st h
    rw [List.foldl_cons]
    exact ih _ (dedupInv_residualStep pt tweetMap tweets t h)

theorem dedupInv_leftover_fold :
    ∀ (l : List GTweet) (st : GState), DedupInv st.processed st.threadMap →
      DedupInv ((l.foldl leftoverStep st)).processed
               ((l.foldl leftoverStep st)).threadMap := by
  intro l
  induction l with
  | nil => exact fun st h => h
  | cons t l ih =>
    intro st h
    rw [List.foldl_cons]
    exact ih _ (dedupInv_leftoverStep t h)

/-! ## From the final state to the output id list -/

theorem outputIds_append (a b : List GItem) :
    outputIds (a ++ b) = outputIds a ++ outputIds b := by
  simp [outputIds]

theorem outputIds_map_tweet (pm : List (String × Nat)) (l : List GTweet) :
    outputIds (l.map (fun t => GItem.tweet (applyPos pm t))) = l.map (·.id) := by
  induction l with
  | nil => rfl
  | cons t l ih =>
    simp only [List.map_cons, outputIds, List.flatMap_cons, itemIds] at ih ⊢
    rw [ih, applyPos_id]
    rfl

theorem outputIds_buildResultStep_sublist (pm : List (String × Nat))
    (acc : List GItem) (e : String × List GTweet) :
    (outputIds (buildResultStep pm acc e)).Sublist
      (outputIds acc ++ e.2.map (·.id)) := by
  unfold buildResultStep
  split
  · rw [outputIds_append, outputIds_map_tweet]
  · split
    · rename_i t0 t1 rest heq
      rw [outputIds_append]
      apply List.Sublist.append (List.Sublist.refl _)
      have : outputIds [GItem.thread
          { id := e.1, tweets := e.2.map (applyPos pm),
            authorId := t0.authorId, created_at := t0.created_at }]
          = e.2.map (·.id) := by
        simp only [outputIds, List.flatMap_cons, List.flatMap_nil, List.append_nil,
          itemIds, List.map_map]
        apply List.map_congr_left
        intro t _
        exact applyPos_id pm t
      rw [this]
    · exact List.sublist_append_left _ _

theorem outputIds_buildResult_sublist (pm : List (String × Nat)) :
    ∀ (m : List (String × List GTweet)) (acc : List GItem),
      (outputIds (m.foldl (buildResultStep pm) acc)).Sublist
        (outputIds acc ++ mapTweetIds m) := by
  intro m
  induction m with
  | nil =>
    intro acc
    simp [mapTweetIds]
  | cons e rest ih =>
    intro acc
    rw [List.foldl_cons, mapTweetIds_cons, ← List.append_assoc]
    refine (ih (buildResultStep pm acc e)).trans ?_
    exact List.Sublist.append (outputIds_buildResultStep_sublist pm acc e)
      (List.Sublist.refl _)

theorem outputIds_perm {a b : List GItem} (h : a.Perm b) :
    (outputIds a).Perm (outputIds b) := by
  unfold outputIds
  simpa [List.flatMap] using (h.map itemIds).flatten

/-- Under the hypotheses of the amended C1, the self-thread collection pass
gathers nothing. -/
theorem buildSelfThreads_nil (tweetMap : List (String × GTweet)) :
    ∀ tweets : List GTweet,
      (∀ t ∈ tweets, (t.is_self_thread && truthy t.conversation_id) = false ∧
        (truthy t.in_reply_to_tweet_id && truthy t.in_reply_to_user_id) = false) →
      buildSelfThreads tweetMap tweets = [] := by
  have hstep : ∀ t : GTweet,
      (t.is_self_thread && truthy t.conversation_id) = false →
      (truthy t.in_reply_to_tweet_id && truthy t.in_reply_to_user_id) = false →
      buildSelfThreadsStep tweetMap [] t = [] := by
    intro t h1 h2
    unfold buildSelfThreadsStep
    rw [h1, h2]
    simp
  intro tweets
  unfold buildSelfThreads
  induction tweets with
  | nil => intro _; rfl
  | cons t l ih =>
    intro h
    rw [List.foldl_cons,
      hstep t (h t (List.mem_cons_self t l)).1 (h t (List.mem_cons_self t l)).2]
    exact ih (fun x hx => h x (List.mem_cons_of_mem t hx))

theorem processSelfThreads_nil (pt : String → Option Int)
    (tweetMap : List (String × GTweet)) (st : GState) :
    processSelfThreads pt tweetMap [] st = st := rfl

/-- C1 (amended): `groupThreads` never emits the same post id in two
different output elements — nor twice overall — provided the explicit
self-thread pass collects nothing, i.e. no input post is flagged
`isSelfThread` (with a conversation id) and no input post carries both
`inReplyToPostId` and `inReplyToUserId`.  (Without that hypothesis the
self-thread pass can place one post id into two candidate groups keyed by
different conversation ids and emit it in two Threads.) -/
theorem C1_groupThreads_dedup (pt : String → Option Int) (tweets : List GTweet)
    (h : ∀ t ∈ tweets, (t.is_self_thread && truthy t.conversation_id) = false ∧
      (truthy t.in_reply_to_tweet_id && truthy t.in_reply_to_user_id) = false) :
    (outputIds (groupThreads pt tweets)).Nodup := by
  simp only [groupThreads]
  rw [buildSelfThreads_nil _ tweets h, processSelfThreads_nil]
  set tweetMap := tweets.foldl (fun m t => mapSet m t.id t) [] with htm
  set st2 := tweets.foldl (residualStep pt tweetMap tweets)
    { processed := [], threadMap := [], posMap := [] } with hst2
  set st3 := tweets.foldl leftoverStep st2 with hst3
  have hinv0 : DedupInv ({ processed := [], threadMap := [], posMap := [] } : GState).processed
      ({ processed := [], threadMap := [], posMap := [] } : GState).threadMap := by
    refine ⟨List.nodup_nil, List.nodup_nil, ?_⟩
    intro i hi
    simp [mapTweetIds] at hi
  have hinv2 : DedupInv st2.processed st2.threadMap :=
    dedupInv_residual_fold pt tweetMap tweets tweets _ hinv0
  have hinv3 : DedupInv st3.processed st3.threadMap :=
    dedupInv_leftover_fold tweets st2 hinv2
  have hperm : (outputIds (jsSort (groupThreadsSortLe pt)
      (buildResult st3.posMap st3.threadMap))).Perm
      (outputIds (buildResult st3.posMap st3.threadMap)) :=
    outputIds_perm (jsSort_perm _ _)
  apply hperm.nodup_iff.mpr
  have hsub : (outputIds (buildResult st3.posMap st3.threadMap)).Sublist
      (mapTweetIds st3.threadMap) := by
    have := outputIds_buildResult_sublist st3.posMap st3.threadMap []
    simpa [outputIds] using this
  exact hsub.nodup hinv3.2.1

/-! ## C1, C2: counterexamples, minimum thread size, witnesses -/

/-- C1 counterexample, post A: a plain post. -/
def c1ceA : GTweet :=
  { id := "1", authorId := some "u", created_at := "d",
    conversation_id := none, thread_id := none,
    in_reply_to_tweet_id := none, in_reply_to_user_id := none,
    is_self_thread := false, thread_position := none, thread_index := none }

/-- C1 counterexample, post B: flagged self-thread in conversation c1,
replying to A. -/
def c1ceB : GTweet :=
  { c1ceA with id := "2", conversation_id := some "c1",
               in_reply_to_tweet_id := some "1", is_self_thread := true }

/-- C1 counterexample, post C: reply to A by the same author, carrying
conversation c2. -/
def c1ceC : GTweet :=
  { c1ceA with id := "3", conversation_id := some "c2",
               in_reply_to_tweet_id := some "1", in_reply_to_user_id := some "u" }

set_option maxRecDepth 4000 in
/-- C1 counterexample: post "1" is pulled into *two* self-thread candidate
groups (keyed c1 via B's flag, keyed c2 via C's same-author reply), both of
size 2, and `groupThreads` emits it inside two different Threads — the output
id list ["2","1","3","1"] repeats "1" although the input ids are distinct. -/
theorem C1_counterexample :
    (([c1ceA, c1ceB, c1ceC].map (·.id)).Nodup) ∧
    ¬ (outputIds (groupThreads (fun _ => none) [c1ceA, c1ceB, c1ceC])).Nodup :=
  ⟨by decide, by decide⟩

/-- Witness for C1's amended theorem: two unlinked posts sharing a
conversation id come out with duplicate-free output ids. -/
theorem C1_groupThreads_dedup_witness :
    (outputIds (groupThreads (fun _ => none)
      [{ c1ceA with conversation_id := some "c" },
       { c1ceA with id := "2", conversation_id := some "c" }])).Nodup :=
  C1_groupThreads_dedup (fun _ => none)
    [{ c1ceA with conversation_id := some "c" },
     { c1ceA with id := "2", conversation_id := some "c" }]
    (by intro t ht; fin_cases ht <;> exact ⟨by decide, by decide⟩)

theorem buildResultStep_thread_len {pm : List (String × Nat)} {acc : List GItem}
    {e : String × List GTweet} {th : GThread}
    (hmem : GItem.thread th ∈ buildResultStep pm acc e)
    (hacc : GItem.thread th ∈ acc → 2 ≤ th.tweets.length) :
    2 ≤ th.tweets.length := by
  unfold buildResultStep at hmem
  split at hmem
  · rcases List.mem_append.mp hmem with hm | hm
    · exact hacc hm
    · rcases List.mem_map.mp hm with ⟨t, _, heq⟩
      cases heq
  · split at hmem
    · rename_i t0 t1 rest heq
      rcases List.mem_append.mp hmem with hm | hm
      · exact hacc hm
      · simp only [List.mem_singleton, GItem.thread.injEq] at hm
        rw [hm]
        simp [heq]
    · exact hacc hmem

theorem buildResult_thread_len (pm : List (String × Nat)) :
    ∀ (m : List (String × List GTweet)) (acc : List GItem),
      (∀ th : GThread, GItem.thread th ∈ acc → 2 ≤ th.tweets.length) →
      ∀ th : GThread, GItem.thread th ∈ m.foldl (buildResultStep pm) acc →
        2 ≤ th.tweets.length := by
  intro m
  induction m with
  | nil =>
    intro acc hacc th hth
    exact hacc th hth
  | cons e rest ih =>
    intro acc hacc th hth
    rw [List.foldl_cons] at hth
    exact ih _ (fun th' hth' => buildResultStep_thread_len hth' (hacc th')) th hth

/-- C2 (amended): every Thread emitted by `groupThreads` contains at least 2
posts, for every input.  A candidate group that ends up with exactly one
member is never emitted as a Thread — though, contrary to the claim, it can
be dropped entirely rather than emitted as a standalone post when a residual
thread key collides with the reserved `'standalone'` bucket (see the
counterexample). -/
theorem C2_thread_min_size (pt : String → Option Int) (tweets : List GTweet)
    (th : GThread) (hmem : GItem.thread th ∈ groupThreads pt tweets) :
    2 ≤ th.tweets.length := by
  simp only [groupThreads] at hmem
  have hmem' := jsSort_mem.mp hmem
  unfold buildResult at hmem'
  exact buildResult_thread_len _ _ []
    (fun th' hth' => absurd hth' (List.not_mem_nil _)) th hmem'

/-- C2 counterexample, post 1: a post in its own conversation c9. -/
def c2ceT1 : GTweet :=
  { id := "1", authorId := some "u", created_at := "d",
    conversation_id := some "c9", thread_id := none,
    in_reply_to_tweet_id := none, in_reply_to_user_id := none,
    is_self_thread := false, thread_position := none, thread_index := none }

/-- C2 counterexample, post 2: conversation id literally "standalone". -/
def c2ceT2 : GTweet :=
  { c2ceT1 with id := "2", conversation_id := some "standalone" }

/-- C2 counterexample, post 3: reply to post 2 (same author, no
in_reply_to_user_id so the self-thread pass skips it). -/
def c2ceT3 : GTweet :=
  { c2ceT1 with id := "3", conversation_id := some "standalone",
                in_reply_to_tweet_id := some "2" }

set_option maxRecDepth 4000 in
/-- C2 counterexample: post "1"'s candidate group ends up with exactly one
member, and the source moves it to the `'standalone'` bucket — but the later
thread `[2, 3]`, whose computed key is the literal string "standalone",
overwrites that bucket, so post "1" is not emitted at all (neither standalone
nor in a Thread), contradicting "is emitted as a standalone post instead". -/
theorem C2_counterexample :
    "1" ∈ ([c2ceT1, c2ceT2, c2ceT3].map (·.id)) ∧
    "1" ∉ outputIds (groupThreads (fun _ => none) [c2ceT1, c2ceT2, c2ceT3]) :=
  ⟨by decide, by decide⟩

def c2wA : GTweet :=
  { id := "1", authorId := some "u", created_at := "d",
    conversation_id := none, thread_id := none,
    in_reply_to_tweet_id := none, in_reply_to_user_id := none,
    is_self_thread := false, thread_position := none, thread_index := none }

def c2wB : GTweet :=
  { c2wA with id := "2", conversation_id := some "t1",
              in_reply_to_tweet_id := some "1", in_reply_to_user_id := some "u" }

/-- The Thread that `groupThreads` emits for `[c2wA, c2wB]`. -/
def c2wThread : GThread :=
  { id := "t1",
    tweets := [{ c2wB with thread_position := some 0, thread_index := some 0 },
               { c2wA with thread_position := some 1, thread_index := some 1 }],
    authorId := some "u", created_at := "d" }

set_option maxRecDepth 4000 in
/-- Witness for C2 at a concrete emitted Thread. -/
theorem C2_thread_min_size_witness : 2 ≤ c2wThread.tweets.length :=
  C2_thread_min_size (fun _ => none) [c2wA, c2wB] c2wThread (by decide)

/-! ## C10: completeness for inputs without reply linkage -/

/-- The standalone-only invariant: for inputs with no reply linkage and no
self-thread flags the thread map never holds anything but the standalone
bucket, and every processed id is stored in it. -/
def StandInv (proc : List String) (tm : List (String × List GTweet)) : Prop :=
  (tm = [] ∨ ∃ s : List GTweet, tm = [("standalone", s)]) ∧
  ∀ i ∈ proc, i ∈ mapTweetIds tm

theorem standalonePush_shape {tm : List (String × List GTweet)} {t : GTweet}
    (h : tm = [] ∨ ∃ s, tm = [("standalone", s)]) :
    (∃ s', standalonePush tm t = [("standalone", s')]) ∧
    mapTweetIds (standalonePush tm t) = mapTweetIds tm ++ [t.id] := by
  rcases h with rfl | ⟨s, rfl⟩
  · exact ⟨⟨[t], rfl⟩, rfl⟩
  · constructor
    · refine ⟨s ++ [t], ?_⟩
      unfold standalonePush
      rw [mapGet?_cons_eq rfl, Option.getD_some,
        mapSet_cons_eq rfl (fun x hx => absurd hx (List.not_mem_nil x))]
    · unfold standalonePush
      rw [mapGet?_cons_eq rfl, Option.getD_some,
        mapSet_cons_eq rfl (fun x hx => absurd hx (List.not_mem_nil x))]
      simp [mapTweetIds]

theorem standInv_push {proc proc' : List String} {tm : List (String × List GTweet)}
    {t : GTweet} (h : StandInv proc tm)
    (hproc : ∀ i ∈ proc', i ∈ proc ∨ i = t.id) :
    StandInv proc' (standalonePush tm t) := by
  obtain ⟨hshape, hp⟩ := h
  obtain ⟨⟨s', hs'⟩, hids⟩ := standalonePush_shape (t := t) hshape
  refine ⟨Or.inr ⟨s', hs'⟩, ?_⟩
  intro i hi
  rw [hids]
  rcases hproc i hi with hi' | rfl
  · exact List.mem_append.mpr (Or.inl (hp i hi'))
  · exact List.mem_append.mpr (Or.inr (by simp))

theorem buildReplyMap_nil :
    ∀ members : List GTweet,
      (∀ t ∈ members, truthy t.in_reply_to_tweet_id = false) →
      buildReplyMap members = [] := by
  have hstep : ∀ t : GTweet, truthy t.in_reply_to_tweet_id = false →
      buildReplyMapStep [] t = [] := by
    intro t h1
    unfold buildReplyMapStep
    rw [h1]
    simp
  intro members
  unfold buildReplyMap
  induction members with
  | nil => intro _; rfl
  | cons t l ih =>
    intro h
    rw [List.foldl_cons, hstep t (h t (List.mem_cons_self t l))]
    exact ih (fun x hx => h x (List.mem_cons_of_mem t hx))

theorem standInv_residualStep (pt : String → Option Int)
    (tweetMap : List (String × GTweet)) (tweets : List GTweet)
    (hrep : ∀ t ∈ tweets, truthy t.in_reply_to_tweet_id = false)
    {st : GState} (tweet : GTweet)
    (h : StandInv st.processed st.threadMap) :
    StandInv (residualStep pt tweetMap tweets st tweet).processed
             (residualStep pt tweetMap tweets st tweet).threadMap := by
  unfold residualStep
  dsimp only
  split
  · exact h
  · split
    · exact standInv_push h (fun i hi => mem_setAdd hi)
    · rename_i hgt
      have hrm : buildReplyMap (tweets.filter
          (residualMember tweetMap tweet (threadKeyOf tweet) st.processed)) = [] :=
        buildReplyMap_nil _ (fun t ht => hrep t (List.mem_filter.mp ht).1)
      split
      · rename_i root heq
        rw [hrm]
        have hwalk : findReplies pt ([] : List (String × List GTweet)) 11 root.id
            (setAdd st.processed root.id) = ([], setAdd st.processed root.id) := rfl
        rw [hwalk]
        exact standInv_push h (fun i hi => mem_setAdd hi)
      · rename_i heq
        exfalso
        split at heq
        · rename_i r hfind
          cases heq
        · rename_i hfind
          have hnil := List.head?_eq_none_iff.mp heq
          have hperm := jsSort_perm (dateLe pt) (tweets.filter
            (residualMember tweetMap tweet (threadKeyOf tweet) st.processed))
          rw [hnil] at hperm
          have hml := (hperm.symm).eq_nil
          rw [hml] at hgt
          simp at hgt

theorem standInv_leftoverStep {st : GState} (tweet : GTweet)
    (h : StandInv st.processed st.threadMap) :
    StandInv (leftoverStep st tweet).processed (leftoverStep st tweet).threadMap := by
  unfold leftoverStep
  split
  · exact h
  · exact standInv_push h (fun i hi => mem_setAdd hi)

theorem standInv_residual_fold (pt : String → Option Int)
    (tweetMap : List (String × GTweet)) (tweets : List GTweet)
    (hrep : ∀ t ∈ tweets, truthy t.in_reply_to_tweet_id = false) :
    ∀ (l : List GTweet) (st : GState), StandInv st.processed st.threadMap →
      StandInv ((l.foldl (residualStep pt tweetMap tweets) st)).processed
               ((l.foldl (residualStep pt tweetMap tweets) st)).threadMap := by
  intro l
  induction l with
  | nil => exact fun st h => h
  | cons t l ih =>
    intro st h
    rw [List.foldl_cons]
    exact ih _ (standInv_residualStep pt tweetMap tweets hrep t h)

theorem standInv_leftover_fold :
    ∀ (l : List GTweet) (st : GState), StandInv st.processed st.threadMap →
      StandInv ((l.foldl leftoverStep st)).processed
               ((l.foldl leftoverStep st)).threadMap := by
  intro l
  induction l with
  | nil => exact fun st h => h
  | cons t l ih =>
    intro st h
    rw [List.foldl_cons]
    exact ih _ (standInv_leftoverStep t h)

theorem leftoverStep_processed_mono (st : GState) (t : GTweet) :
    st.processed ⊆ (leftoverStep st t).processed := by
  unfold leftoverStep
  split
  · exact fun _ h => h
  · exact setAdd_sub _ _

theorem leftover_fold_processed_mono :
    ∀ (l : List GTweet) (st : GState),
      st.processed ⊆ ((l.foldl leftoverStep st)).processed := by
  intro l
  induction l with
  | nil => exact fun st _ h => h
  | cons t l ih =>
    intro st i hi
    rw [List.foldl_cons]
    exact ih _ (leftoverStep_processed_mono st t hi)

theorem leftover_fold_all_processed :
    ∀ (l : List GTweet) (st : GState) (t : GTweet), t ∈ l →
      t.id ∈ ((l.foldl leftoverStep st)).processed := by
  intro l
  induction l with
  | nil =>
    intro st t ht
    cases ht
  | cons x l ih =>
    intro st t ht
    rw [List.foldl_cons]
    rcases List.mem_cons.mp ht with rfl | ht'
    · apply leftover_fold_processed_mono l (leftoverStep st t)
      unfold leftoverStep
      split
      · rename_i hc
        simpa using of_decide_eq_true (by simpa using hc)
      · exact mem_setAdd_self _ _
    · exact ih _ t ht'

set_option maxRecDepth 2000 in
/-- C10 (amended): for input lists with distinct ids in which no post carries
reply linkage (`inReplyToPostId`) and no post is flagged `isSelfThread`,
every input post appears in `groupThreads`' output.  (With reply linkage
present the claim fails: two candidate groups can compute the same thread-map
key — including the reserved `'standalone'` key — and the later `Map.set`
silently drops the earlier group's posts, see the counterexample.) -/
theorem C10_no_posts_dropped (pt : String → Option Int) (tweets : List GTweet)
    (_hids : (tweets.map (·.id)).Nodup)
    (hrep : ∀ t ∈ tweets, truthy t.in_reply_to_tweet_id = false)
    (hflag : ∀ t ∈ tweets, t.is_self_thread = false) :
    ∀ t ∈ tweets, t.id ∈ outputIds (groupThreads pt tweets) := by
  intro t ht
  simp only [groupThreads]
  rw [buildSelfThreads_nil _ tweets
    (fun x hx => ⟨by rw [hflag x hx]; rfl, by rw [hrep x hx]; rfl⟩),
    processSelfThreads_nil]
  set tweetMap := tweets.foldl (fun m t => mapSet m t.id t) [] with htm
  set st2 := tweets.foldl (residualStep pt tweetMap tweets)
    { processed := [], threadMap := [], posMap := [] } with hst2
  set st3 := tweets.foldl leftoverStep st2 with hst3
  have hinv0 : StandInv ({ processed := [], threadMap := [], posMap := [] } : GState).processed
      ({ processed := [], threadMap := [], posMap := [] } : GState).threadMap := by
    exact ⟨Or.inl rfl, fun i hi => absurd hi (List.not_mem_nil i)⟩
  have hinv2 : StandInv st2.processed st2.threadMap :=
    standInv_residual_fold pt tweetMap tweets hrep tweets _ hinv0
  have hinv3 : StandInv st3.processed st3.threadMap :=
    standInv_leftover_fold tweets st2 hinv2
  have hproc : t.id ∈ st3.processed := leftover_fold_all_processed tweets st2 t ht
  have hmem : t.id ∈ mapTweetIds st3.threadMap := hinv3.2 _ hproc
  apply (outputIds_perm (jsSort_perm (groupThreadsSortLe pt) _)).mem_iff.mpr
  rcases hinv3.1 with hnil | ⟨s, hs⟩
  · rw [hnil] at hmem
    simp [mapTweetIds] at hmem
  · rw [hs] at hmem
    rw [hs]
    have hbr : buildResult st3.posMap [("standalone", s)] =
        s.map (fun tw => GItem.tweet (applyPos st3.posMap tw)) := by
      unfold buildResult
      rw [List.foldl_cons]
      unfold buildResultStep
      simp
    rw [hbr, outputIds_map_tweet]
    simpa [mapTweetIds] using hmem

/-- C10 counterexample, post 1: alone in conversation c9. -/
def c10ceT1 : GTweet :=
  { id := "1", authorId := some "u", created_at := "d",
    conversation_id := some "c9", thread_id := none,
    in_reply_to_tweet_id := none, in_reply_to_user_id := none,
    is_self_thread := false, thread_position := none, thread_index := none }

/-- C10 counterexample, post 2: conversation id literally "standalone". -/
def c10ceT2 : GTweet :=
  { c10ceT1 with id := "2", conversation_id := some "standalone" }

/-- C10 counterexample, post 3: same-author reply to post 2 (without
`in_reply_to_user_id`, so the self-thread pass ignores it). -/
def c10ceT3 : GTweet :=
  { c10ceT1 with id := "3", conversation_id := some "standalone",
                 in_reply_to_tweet_id := some "2" }

set_option maxRecDepth 4000 in
/-- C10 counterexample: the input ids are distinct, yet post "1" is missing
from the output — it is first parked in the `'standalone'` bucket, then the
residual thread `[2, 3]` computes the thread key "standalone" and its
`Map.set` replaces the bucket, dropping post "1". -/
theorem C10_counterexample :
    (([c10ceT1, c10ceT2, c10ceT3].map (·.id)).Nodup) ∧
    "1" ∈ ([c10ceT1, c10ceT2, c10ceT3].map (·.id)) ∧
    "1" ∉ outputIds (groupThreads (fun _ => none) [c10ceT1, c10ceT2, c10ceT3]) :=
  ⟨by decide, by decide, by decide⟩

def c10wA : GTweet :=
  { id := "1", authorId := some "u", created_at := "d",
    conversation_id := some "c1", thread_id := none,
    in_reply_to_tweet_id := none, in_reply_to_user_id := none,
    is_self_thread := false, thread_position := none, thread_index := none }

def c10wB : GTweet := { c10wA with id := "2", conversation_id := some "c2" }

set_option maxRecDepth 2000 in
/-- Witness for C10's amended theorem at a concrete two-post input. -/
theorem C10_no_posts_dropped_witness :
    c10wA.id ∈ outputIds (groupThreads (fun _ => none) [c10wA, c10wB]) :=
  C10_no_posts_dropped (fun _ => none) [c10wA, c10wB]
    (by decide)
    (by intro t ht; fin_cases ht <;> decide)
    (by intro t ht; fin_cases ht <;> decide)
    c10wA (by decide)

/-! ## C9: no exception escapes `fetchUserTweets` / `groupThreads`

`groupThreads` performs no I/O and its embedding above is a total function;
the only operation in it (and in `fetchAllReplies`' sort) that can throw in
JavaScript is `BigInt(id)` inside the `catch` arms of the date comparators
(SyntaxError on a non-numeric id).  `new Date(s).getTime()` never throws — it
yields NaN — so the `try` block always completes and the `catch` arm is dead;
the comparator is total.  `fetchUserTweets` wraps its whole pipeline in
`try … catch` (api.ts lines 400, 568–576) and resolves every error to `[]`
after a toast notification. -/

/-- `BigInt(s)`: throws on a non-numeric string, modelled as `Except`. -/
def jsBigInt (s : String) : Except Unit Int :=
  match s.toInt? with
  | some v => Except.ok v
  | none => Except.error ()

/-- The try/catch date comparator with the exception behaviour explicit: the
`try` block `new Date(a).getTime() - new Date(b).getTime()` always completes
(NaN coerces to 0 in the sort), so the potentially-throwing `BigInt`
fallback of the `catch` arm (api.ts lines 378–381 and the `groupThreads`
copies) is unreachable. -/
def dateCompareCaught (pt : String → Option Int) (a b : GTweet) :
    Except Unit Int :=
  match (Except.ok ((jsDateDiff pt a.created_at b.created_at).getD 0) :
      Except Unit Int) with
  | Except.ok v => Except.ok v
  | Except.error _ => do
    let x ← jsBigInt a.id
    let y ← jsBigInt b.id
    pure (x - y)

/-- The outer try/catch boundary of `fetchUserTweets` (api.ts lines 400,
568–576): a pipeline error resolves to the empty list, a successful pipeline
resolves to its tweets; nothing is rethrown. -/
def fetchUserTweets_boundary (pipeline : Except Unit (List GTweet)) :
    List GTweet :=
  match pipeline with
  | Except.ok tweets => tweets
  | Except.error _ => []

/-- C9: no error is thrown past the public boundary.  The sort comparators —
the only throw-capable code `groupThreads` executes — always return `ok`
(with exactly the value the total embedding `dateCompare` uses, so
`groupThreads pt tweets` is a well-defined total function for every input),
and the `fetchUserTweets` boundary maps every failed pipeline to `[]` and
every successful one to its result. -/
theorem C9_no_escaping_errors :
    (∀ (pt : String → Option Int) (a b : GTweet),
      dateCompareCaught pt a b = Except.ok (dateCompare pt a b)) ∧
    (∀ e : Unit, fetchUserTweets_boundary (Except.error e) = []) ∧
    (∀ l : List GTweet, fetchUserTweets_boundary (Except.ok l) = l) :=
  ⟨fun _ _ _ => rfl, fun _ => rfl, fun _ => rfl⟩
